import Mathlib

/-!
Shallow embedding of the arithmetic-exercise generator/grader
(`Calculation/`: `numutil.py`, `expr.py`, `gen.py`, `grade.py`).

Strings are modelled as `List Char`.  Python's arbitrary-precision
integers are `ℤ`/`ℕ`, `fractions.Fraction` is `ℚ` (both keep values in
lowest terms with positive denominator).  Code that can raise an
exception is embedded as an `Option`-returning function, `none`
standing for an uncaught exception at that point.  The random source
`random` is embedded as an oracle `g : ℕ → ℕ` together with an index
`k` counting the draws consumed so far: `random.randint(a, b)` at draw
`k` yields `a + g k % (b - a + 1)` and `random.choice(seq)` yields
`seq[g k % len(seq)]`, so theorems quantified over `g` cover every
sequence of draws the library could produce.
-/

namespace Calc

/-- The ten decimal digit characters. -/
def digitChars : List Char := ['0', '1', '2', '3', '4', '5', '6', '7', '8', '9']

/-- Decimal rendering of a natural number, fuel-structured so that it is
kernel-reducible; `fuel ≥ n` always suffices. -/
def natDecAux : ℕ → ℕ → List Char
  | 0, n => [Nat.digitChar (n % 10)]
  | fuel + 1, n =>
    if n < 10 then [Nat.digitChar n]
    else natDecAux fuel (n / 10) ++ [Nat.digitChar (n % 10)]

/-- Python's `str` on a nonnegative `int`: standard decimal digits. -/
def natDec (n : ℕ) : List Char := natDecAux n n

/-- Python's `str` on an `int` (f-string formatting of a Python integer). -/
def intDec (i : ℤ) : List Char :=
  if i < 0 then '-' :: natDec i.natAbs else natDec i.toNat

/-- Value of a decimal digit character. -/
def decDigit? (c : Char) : Option ℕ :=
  if '0' ≤ c ∧ c ≤ '9' then some (c.toNat - '0'.toNat) else none

/-- Accumulating decimal parse of a digit string. -/
def parse10 : ℕ → List Char → Option ℕ
  | acc, [] => some acc
  | acc, c :: cs =>
    match decDigit? c with
    | some d => parse10 (acc * 10 + d) cs
    | none => none

/-- Parse a nonempty all-digit string. -/
def parseDigits : List Char → Option ℕ
  | [] => none
  | c :: cs => parse10 0 (c :: cs)

/-- The whitespace characters stripped by Python's `str.strip()` (ASCII part,
which is all that can occur in this system's artifacts). -/
def isSpaceChar (c : Char) : Bool :=
  c = ' ' || c = '\t' || c = '\n' || c = '\r'

/-- Python `str.strip()`: drop whitespace from both ends. -/
def stripWs (s : List Char) : List Char :=
  ((s.dropWhile isSpaceChar).reverse.dropWhile isSpaceChar).reverse

/-- Python `int(str)`: strip, optional single sign, then a nonempty digit
string; any other shape raises `ValueError` (= `none`). -/
def pyInt (s : List Char) : Option ℤ :=
  match stripWs s with
  | '-' :: rest => (parseDigits rest).map (fun n => -(n : ℤ))
  | '+' :: rest => (parseDigits rest).map (fun n => (n : ℤ))
  | other => (parseDigits other).map (fun n => (n : ℤ))

/-! ### Basic numeral lemmas -/

theorem digitChar_mem_digitChars {d : ℕ} (h : d < 10) :
    Nat.digitChar d ∈ digitChars := by
  interval_cases d <;> decide

theorem decDigit?_digitChar {d : ℕ} (h : d < 10) :
    decDigit? (Nat.digitChar d) = some d := by
  interval_cases d <;> decide

theorem natDecAux_mem {fuel n : ℕ} (h : n ≤ fuel) :
    ∀ c ∈ natDecAux fuel n, c ∈ digitChars := by
  induction fuel generalizing n with
  | zero =>
    intro c hc
    simp only [natDecAux, List.mem_singleton] at hc
    subst hc
    exact digitChar_mem_digitChars (Nat.mod_lt _ (by norm_num))
  | succ fuel ih =>
    intro c hc
    simp only [natDecAux] at hc
    by_cases h10 : n < 10
    · simp only [if_pos h10, List.mem_singleton] at hc
      subst hc
      exact digitChar_mem_digitChars h10
    · simp only [if_neg h10, List.mem_append, List.mem_singleton] at hc
      rcases hc with hc | hc
      · have hn : 0 < n := by omega
        have : n / 10 ≤ fuel := by
          have := Nat.div_lt_self hn (by norm_num : (1:ℕ) < 10)
          omega
        exact ih this c hc
      · subst hc
        exact digitChar_mem_digitChars (Nat.mod_lt _ (by norm_num))

theorem natDec_mem {n : ℕ} : ∀ c ∈ natDec n, c ∈ digitChars :=
  natDecAux_mem le_rfl

theorem natDecAux_ne_nil (fuel n : ℕ) : natDecAux fuel n ≠ [] := by
  cases fuel with
  | zero => simp [natDecAux]
  | succ fuel =>
    simp only [natDecAux]
    split <;> simp

theorem natDec_ne_nil (n : ℕ) : natDec n ≠ [] := natDecAux_ne_nil n n

theorem parse10_append {xs : List Char} {acc m : ℕ} (ys : List Char)
    (h : parse10 acc xs = some m) :
    parse10 acc (xs ++ ys) = parse10 m ys := by
  induction xs generalizing acc with
  | nil => simp only [parse10] at h; cases h; simp [parse10]
  | cons c cs ih =>
    simp only [parse10] at h ⊢
    cases hd : decDigit? c with
    | none => rw [hd] at h; exact Option.noConfusion h
    | some d => rw [hd] at h; exact ih h

theorem parse10_natDecAux {fuel n : ℕ} (h : n ≤ fuel) (acc : ℕ) :
    parse10 acc (natDecAux fuel n) =
      some (acc * 10 ^ (natDecAux fuel n).length + n) := by
  induction fuel generalizing n acc with
  | zero =>
    have hn : n = 0 := by omega
    subst hn
    simp [natDecAux, parse10, decDigit?_digitChar]
  | succ fuel ih =>
    by_cases h10 : n < 10
    · simp [natDecAux, if_pos h10, parse10, decDigit?_digitChar h10]
    · have hn : 0 < n := by omega
      have hle : n / 10 ≤ fuel := by
        have := Nat.div_lt_self hn (by norm_num : (1:ℕ) < 10)
        omega
      simp only [natDecAux, if_neg h10]
      rw [parse10_append _ (ih hle acc)]
      have hd : decDigit? (Nat.digitChar (n % 10)) = some (n % 10) :=
        decDigit?_digitChar (Nat.mod_lt _ (by norm_num))
      simp only [parse10, hd, List.length_append, List.length_cons,
        List.length_nil]
      congr 1
      have : (acc * 10 ^ (natDecAux fuel (n / 10)).length + n / 10) * 10 + n % 10
          = acc * 10 ^ ((natDecAux fuel (n / 10)).length + 1)
            + (10 * (n / 10) + n % 10) := by ring
      rw [this, Nat.div_add_mod]

theorem parseDigits_natDec (n : ℕ) : parseDigits (natDec n) = some n := by
  have h := parse10_natDecAux (le_rfl : n ≤ n) 0
  have hne := natDec_ne_nil n
  cases hd : natDec n with
  | nil => exact absurd hd hne
  | cons c cs =>
    unfold natDec at h hd
    rw [hd] at h
    simpa [parseDigits, hd] using h

/-- Per-character facts about decimal digits used to steer the parsers. -/
theorem digitChars_facts : ∀ c ∈ digitChars,
    isSpaceChar c = false ∧ c ≠ '-' ∧ c ≠ '+' ∧ c ≠ '/' ∧ c ≠ '’' ∧
    c ≠ '\'' ∧ c ≠ ',' ∧ c ≠ '(' ∧ c ≠ ')' ∧ c ≠ '[' ∧ c ≠ ']' ∧
    c ≠ '=' ∧ c ≠ '×' ∧ c ≠ '÷' := by decide

theorem dropWhile_eq_self_of {p : Char → Bool} {s : List Char}
    (h : ∀ c ∈ s, p c = false) : s.dropWhile p = s := by
  cases s with
  | nil => rfl
  | cons c cs => simp [List.dropWhile_cons, h c (by simp)]

theorem stripWs_eq_self {s : List Char}
    (h : ∀ c ∈ s, isSpaceChar c = false) : stripWs s = s := by
  unfold stripWs
  rw [dropWhile_eq_self_of h]
  rw [dropWhile_eq_self_of (fun c hc => h c (List.mem_reverse.mp hc))]
  exact List.reverse_reverse s

theorem natDec_not_space {n : ℕ} : ∀ c ∈ natDec n, isSpaceChar c = false :=
  fun c hc => (digitChars_facts c (natDec_mem c hc)).1

theorem natDec_not_mem {n : ℕ} {x : Char} (hx : x ∉ digitChars) :
    x ∉ natDec n := fun hmem => hx (natDec_mem x hmem)

theorem intDec_not_space {i : ℤ} : ∀ c ∈ intDec i, isSpaceChar c = false := by
  intro c hc
  unfold intDec at hc
  split at hc
  · rcases List.mem_cons.mp hc with rfl | hc
    · decide
    · exact natDec_not_space c hc
  · exact natDec_not_space c hc

theorem intDec_mem {i : ℤ} : ∀ c ∈ intDec i, c = '-' ∨ c ∈ digitChars := by
  intro c hc
  unfold intDec at hc
  split at hc
  · rcases List.mem_cons.mp hc with rfl | hc
    · exact Or.inl rfl
    · exact Or.inr (natDec_mem c hc)
  · exact Or.inr (natDec_mem c hc)

theorem pyInt_natDec (n : ℕ) : pyInt (natDec n) = some (n : ℤ) := by
  unfold pyInt
  rw [stripWs_eq_self natDec_not_space]
  split
  · next rest heq =>
      exact absurd (heq ▸ List.mem_cons_self '-' rest)
        (natDec_not_mem (by decide))
  · next rest heq =>
      exact absurd (heq ▸ List.mem_cons_self '+' rest)
        (natDec_not_mem (by decide))
  · rw [parseDigits_natDec]; rfl

theorem pyInt_intDec (i : ℤ) : pyInt (intDec i) = some i := by
  by_cases hneg : i < 0
  · unfold pyInt intDec
    rw [if_pos hneg]
    rw [stripWs_eq_self (by
      intro c hc
      rcases List.mem_cons.mp hc with rfl | hc
      · decide
      · exact natDec_not_space c hc)]
    split
    · next rest heq =>
        injection heq with h1 h2
        rw [← h2, parseDigits_natDec]
        show some (-(i.natAbs : ℤ)) = some i
        congr 1
        omega
    · next rest heq => injection heq with h1 h2; exact absurd h1 (by decide)
    · next h1 h2 => exact absurd rfl (h1 (natDec i.natAbs))
  · unfold intDec
    rw [if_neg hneg, pyInt_natDec]
    congr 1
    omega

/-! ### String splitting (Python `str.split`) -/

/-- Python `s.split(sep, 1)` when `sep` occurs in `s`: the parts before and
after the first occurrence (`none` when `sep` is absent). -/
def splitFirst (sep : Char) : List Char → Option (List Char × List Char)
  | [] => none
  | c :: cs =>
    if c = sep then some ([], cs)
    else (splitFirst sep cs).map (fun p => (c :: p.1, p.2))

/-- Python `s.split(sep)`: all fields between occurrences of `sep`. -/
def splitAll (sep : Char) : List Char → List (List Char)
  | [] => [[]]
  | c :: cs =>
    if c = sep then [] :: splitAll sep cs
    else
      match splitAll sep cs with
      | [] => [[c]]
      | h :: t => (c :: h) :: t

theorem splitFirst_of_not_mem {sep : Char} {a : List Char} (ha : sep ∉ a)
    (b : List Char) : splitFirst sep (a ++ sep :: b) = some (a, b) := by
  induction a with
  | nil => simp [splitFirst]
  | cons c cs ih =>
    have hc : c ≠ sep := fun h => ha (h ▸ List.mem_cons_self c cs)
    have hcs : sep ∉ cs := fun h => ha (List.mem_cons_of_mem c h)
    simp [splitFirst, hc, ih hcs]

theorem splitAll_of_not_mem {sep : Char} {b : List Char} (hb : sep ∉ b) :
    splitAll sep b = [b] := by
  induction b with
  | nil => rfl
  | cons c cs ih =>
    have hc : c ≠ sep := fun h => hb (h ▸ List.mem_cons_self c cs)
    have hcs : sep ∉ cs := fun h => hb (List.mem_cons_of_mem c h)
    simp [splitAll, hc, ih hcs]

theorem splitAll_append {sep : Char} {a : List Char} (ha : sep ∉ a)
    (b : List Char) : splitAll sep (a ++ sep :: b) = a :: splitAll sep b := by
  induction a with
  | nil => simp [splitAll]
  | cons c cs ih =>
    have hc : c ≠ sep := fun h => ha (h ▸ List.mem_cons_self c cs)
    have hcs : sep ∉ cs := fun h => ha (List.mem_cons_of_mem c h)
    simp only [List.cons_append, splitAll, if_neg hc, List.append_eq, ih hcs]

/-- `splitAll` on `a ++ sep :: b` with `sep` in neither part: two fields. -/
theorem splitAll_pair {sep : Char} {a b : List Char} (ha : sep ∉ a)
    (hb : sep ∉ b) : splitAll sep (a ++ sep :: b) = [a, b] := by
  rw [splitAll_append ha, splitAll_of_not_mem hb]

/-! ### `numutil.py`: `fraction_to_str` and `parse_fraction_str` -/

/-- The right single quotation mark used to print mixed numbers
(`numutil.APOSTROPHE`, `"’"`). -/
def APOSTROPHE : Char := '’'

/-- `numutil.fraction_to_str`: canonical rendering of a `Fraction`.
`Fraction(x.numerator, x.denominator)` re-normalizes, which is the identity
on `ℚ`; Python's `//` is floor division (`Int.fdiv`); the source's local
variables `sign`, `ax`, `int_part` and `rem` are inlined. -/
def fraction_to_str (x : ℚ) : List Char :=
  if x.den = 1 then intDec x.num
  else if |x|.num < (|x|.den : ℤ) then
    (if x < 0 then ['-'] else []) ++ intDec |x|.num ++ '/' :: intDec (|x|.den : ℤ)
  else if |x| - (Int.fdiv |x|.num (|x|.den : ℤ) : ℚ) = 0 then
    (if x < 0 then ['-'] else []) ++ intDec (Int.fdiv |x|.num (|x|.den : ℤ))
  else
    (if x < 0 then ['-'] else []) ++ intDec (Int.fdiv |x|.num (|x|.den : ℤ)) ++
      APOSTROPHE :: (intDec (|x| - (Int.fdiv |x|.num (|x|.den : ℤ) : ℚ)).num ++
        '/' :: intDec ((|x| - (Int.fdiv |x|.num (|x|.den : ℤ) : ℚ)).den : ℤ))

/-- Body of `numutil.parse_fraction_str` after sign handling: the three
literal shapes `A<sep>a/b`, `a/b`, `A`.  Raising (`ValueError` on a
malformed literal, `ZeroDivisionError` on `Fraction(_, 0)`) is `none`. -/
def parseCore (s : List Char) : Option ℚ :=
  if APOSTROPHE ∈ s ∨ '\'' ∈ s then
    let sep := if APOSTROPHE ∈ s then APOSTROPHE else '\''
    match splitFirst sep s with
    | none => none
    | some (ipartS, frac) =>
      match pyInt ipartS with
      | none => none
      | some ipart =>
        match splitAll '/' frac with
        | [numS, denS] =>
          match pyInt numS, pyInt denS with
          | some nu, some de =>
            if de = 0 then none
            else some ((ipart : ℚ) + (nu : ℚ) / (de : ℚ))
          | _, _ => none
        | _ => none
  else if '/' ∈ s then
    match splitAll '/' s with
    | [numS, denS] =>
      match pyInt numS, pyInt denS with
      | some nu, some de =>
        if de = 0 then none else some ((nu : ℚ) / (de : ℚ))
      | _, _ => none
    | _ => none
  else (pyInt s).map (fun i => (i : ℚ))

/-- `numutil.parse_fraction_str`: strip, handle one leading `-`, parse the
body, negate if the sign was present. -/
def parse_fraction_str (s0 : List Char) : Option ℚ :=
  let s1 := stripWs s0
  if s1 = [] then none
  else if s1.head? = some '-' then (parseCore s1.tail).map (fun v => -v)
  else parseCore s1

/-! ### The format/parse round trip -/

theorem intDec_nonneg_eq {i : ℤ} (h : 0 ≤ i) : intDec i = natDec i.toNat := by
  unfold intDec
  rw [if_neg (not_lt.mpr h)]

theorem intDec_ne_nil (i : ℤ) : intDec i ≠ [] := by
  unfold intDec
  split
  · simp
  · exact natDec_ne_nil _

theorem not_mem_intDec {x : Char} (hx : x ∉ digitChars) (hx2 : x ≠ '-')
    (i : ℤ) : x ∉ intDec i := by
  intro hmem
  rcases intDec_mem x hmem with h | h
  · exact hx2 h
  · exact hx h

theorem mem_signList {x : ℚ} {c : Char}
    (hc : c ∈ (if x < 0 then ['-'] else ([] : List Char))) : c = '-' := by
  split at hc
  · simpa using hc
  · cases hc

theorem fraction_to_str_chars (x : ℚ) :
    ∀ c ∈ fraction_to_str x, c = '-' ∨ c = '/' ∨ c = APOSTROPHE ∨ c ∈ digitChars := by
  intro c hc
  unfold fraction_to_str at hc
  split at hc
  · rcases intDec_mem c hc with h | h
    · exact Or.inl h
    · exact Or.inr (Or.inr (Or.inr h))
  · split at hc
    · simp only [List.append_assoc, List.mem_append, List.mem_cons] at hc
      rcases hc with hc | hc | rfl | hc
      · exact Or.inl (mem_signList hc)
      · rcases intDec_mem c hc with h | h
        · exact Or.inl h
        · exact Or.inr (Or.inr (Or.inr h))
      · exact Or.inr (Or.inl rfl)
      · rcases intDec_mem c hc with h | h
        · exact Or.inl h
        · exact Or.inr (Or.inr (Or.inr h))
    · split at hc
      · simp only [List.mem_append] at hc
        rcases hc with hc | hc
        · exact Or.inl (mem_signList hc)
        · rcases intDec_mem c hc with h | h
          · exact Or.inl h
          · exact Or.inr (Or.inr (Or.inr h))
      · simp only [List.append_assoc, List.mem_append, List.mem_cons] at hc
        rcases hc with hc | hc | rfl | hc
        · exact Or.inl (mem_signList hc)
        · rcases intDec_mem c hc with h | h
          · exact Or.inl h
          · exact Or.inr (Or.inr (Or.inr h))
        · exact Or.inr (Or.inr (Or.inl rfl))
        · rcases hc with hc | rfl | hc
          · rcases intDec_mem c hc with h | h
            · exact Or.inl h
            · exact Or.inr (Or.inr (Or.inr h))
          · exact Or.inr (Or.inl rfl)
          · rcases intDec_mem c hc with h | h
            · exact Or.inl h
            · exact Or.inr (Or.inr (Or.inr h))

theorem fraction_to_str_not_space (x : ℚ) :
    ∀ c ∈ fraction_to_str x, isSpaceChar c = false := by
  intro c hc
  rcases fraction_to_str_chars x c hc with rfl | rfl | rfl | h
  · decide
  · decide
  · decide
  · exact (digitChars_facts c h).1

theorem fraction_to_str_ne_nil (x : ℚ) : fraction_to_str x ≠ [] := by
  unfold fraction_to_str
  split
  · exact intDec_ne_nil _
  · split
    · simp [intDec_ne_nil]
    · split
      · simp [intDec_ne_nil]
      · simp [intDec_ne_nil]

theorem apos_not_mem_intDec (i : ℤ) : APOSTROPHE ∉ intDec i :=
  not_mem_intDec (by decide) (by decide) i

theorem quote_not_mem_intDec (i : ℤ) : '\'' ∉ intDec i :=
  not_mem_intDec (by decide) (by decide) i

theorem slash_not_mem_intDec (i : ℤ) : '/' ∉ intDec i :=
  not_mem_intDec (by decide) (by decide) i

/-- `parseCore` on a plain integer literal. -/
theorem parseCore_int (i : ℤ) : parseCore (intDec i) = some (i : ℚ) := by
  unfold parseCore
  rw [if_neg (by
    push_neg
    exact ⟨apos_not_mem_intDec i, quote_not_mem_intDec i⟩)]
  rw [if_neg (slash_not_mem_intDec i)]
  rw [pyInt_intDec]
  rfl

/-- `parseCore` on a fraction literal `a/b`. -/
theorem parseCore_pair (a b : ℤ) (hb : b ≠ 0) :
    parseCore (intDec a ++ '/' :: intDec b) = some ((a : ℚ) / (b : ℚ)) := by
  unfold parseCore
  rw [if_neg (by
    push_neg
    constructor
    · simp only [List.mem_append, List.mem_cons]
      push_neg
      exact ⟨apos_not_mem_intDec a, by decide, apos_not_mem_intDec b⟩
    · simp only [List.mem_append, List.mem_cons]
      push_neg
      exact ⟨quote_not_mem_intDec a, by decide, quote_not_mem_intDec b⟩)]
  rw [if_pos (by
    simp only [List.mem_append, List.mem_cons]
    exact Or.inr (Or.inl trivial))]
  rw [splitAll_pair (slash_not_mem_intDec a) (slash_not_mem_intDec b)]
  simp only [pyInt_intDec, if_neg hb]

/-- `parseCore` on a mixed literal `A’a/b` (canonical separator). -/
theorem parseCore_mixed (i a b : ℤ) (hb : b ≠ 0) :
    parseCore (intDec i ++ APOSTROPHE :: (intDec a ++ '/' :: intDec b)) =
      some ((i : ℚ) + (a : ℚ) / (b : ℚ)) := by
  have hmem : APOSTROPHE ∈ intDec i ++ APOSTROPHE :: (intDec a ++ '/' :: intDec b) := by
    simp only [List.mem_append, List.mem_cons]
    exact Or.inr (Or.inl trivial)
  unfold parseCore
  rw [if_pos (Or.inl hmem), if_pos hmem]
  simp only [splitFirst_of_not_mem (apos_not_mem_intDec i),
    splitAll_pair (slash_not_mem_intDec a) (slash_not_mem_intDec b),
    pyInt_intDec, if_neg hb]

/-- `parseCore` on a mixed literal `A'a/b` (ASCII apostrophe fallback). -/
theorem parseCore_mixed_quote (i a b : ℤ) (hb : b ≠ 0) :
    parseCore (intDec i ++ '\'' :: (intDec a ++ '/' :: intDec b)) =
      some ((i : ℚ) + (a : ℚ) / (b : ℚ)) := by
  have hnoapos : APOSTROPHE ∉ intDec i ++ '\'' :: (intDec a ++ '/' :: intDec b) := by
    simp only [List.mem_append, List.mem_cons]
    push_neg
    exact ⟨apos_not_mem_intDec i, by decide,
      apos_not_mem_intDec a, by decide, apos_not_mem_intDec b⟩
  have hmem : '\'' ∈ intDec i ++ '\'' :: (intDec a ++ '/' :: intDec b) := by
    simp only [List.mem_append, List.mem_cons]
    exact Or.inr (Or.inl trivial)
  unfold parseCore
  rw [if_pos (Or.inr hmem), if_neg hnoapos]
  simp only [splitFirst_of_not_mem (quote_not_mem_intDec i),
    splitAll_pair (slash_not_mem_intDec a) (slash_not_mem_intDec b),
    pyInt_intDec, if_neg hb]

theorem den_int_ne_zero (x : ℚ) : ((x.den : ℤ)) ≠ 0 := by
  have := x.pos
  omega

/-- The floor-division integer part used by the mixed-number branch. -/
theorem fdiv_num_den_eq_floor (q : ℚ) :
    Int.fdiv q.num (q.den : ℤ) = ⌊q⌋ := by
  rw [Int.fdiv_eq_ediv _ (by positivity)]
  exact Rat.floor_def.symm

/-- In the mixed branch the remainder is nonzero. -/
theorem rem_ne_zero {q : ℚ} (hden : q.den ≠ 1) :
    q - (Int.fdiv q.num (q.den : ℤ) : ℚ) ≠ 0 := by
  rw [fdiv_num_den_eq_floor]
  intro h
  have hq : q = (⌊q⌋ : ℚ) := sub_eq_zero.mp h
  exact hden (by rw [hq]; exact Rat.den_intCast _)

/-- `parseCore ∘ fraction_to_str` is the identity on nonnegative rationals. -/
theorem parseCore_fraction_to_str {x : ℚ} (hx : 0 ≤ x) :
    parseCore (fraction_to_str x) = some x := by
  have hxabs : |x| = x := abs_of_nonneg hx
  have hsign : (if x < 0 then ['-'] else ([] : List Char)) = [] :=
    if_neg (not_lt.mpr hx)
  by_cases h1 : x.den = 1
  · rw [fraction_to_str, if_pos h1, parseCore_int]
    exact congrArg some (Rat.coe_int_num_of_den_eq_one h1)
  · by_cases h2 : |x|.num < (|x|.den : ℤ)
    · rw [fraction_to_str, if_neg h1, if_pos h2, hxabs, hsign, List.nil_append]
      rw [parseCore_pair _ _ (den_int_ne_zero x)]
      congr 1
      push_cast
      exact Rat.num_div_den x
    · have hrne := rem_ne_zero h1
      rw [fraction_to_str, if_neg h1, if_neg h2, hxabs, hsign,
        if_neg (hxabs ▸ hrne), List.nil_append]
      rw [parseCore_mixed _ _ _ (den_int_ne_zero _)]
      congr 1
      have hnd : ((x - (Int.fdiv x.num (x.den : ℤ) : ℚ)).num : ℚ) /
          (((x - (Int.fdiv x.num (x.den : ℤ) : ℚ)).den : ℤ) : ℚ) =
          x - (Int.fdiv x.num (x.den : ℤ) : ℚ) := by
        push_cast
        exact Rat.num_div_den _
      rw [hnd]
      ring

/-- A nonnegative rational's rendering starts with a digit. -/
theorem fraction_to_str_head_digit {x : ℚ} (hx : 0 ≤ x) :
    ∀ c, (fraction_to_str x).head? = some c → c ∈ digitChars := by
  have hxabs : |x| = x := abs_of_nonneg hx
  have hsign : (if x < 0 then ['-'] else ([] : List Char)) = [] :=
    if_neg (not_lt.mpr hx)
  have hhead : ∀ (n : ℕ) (rest : List Char) (c : Char),
      (natDec n ++ rest).head? = some c → c ∈ digitChars := by
    intro n rest c h
    cases hd : natDec n with
    | nil => exact absurd hd (natDec_ne_nil n)
    | cons d ds =>
      rw [hd] at h
      simp only [List.cons_append, List.head?_cons, Option.some.injEq] at h
      rw [← h]
      exact natDec_mem d (by rw [hd]; exact List.mem_cons_self d ds)
  intro c hc
  by_cases h1 : x.den = 1
  · rw [fraction_to_str, if_pos h1,
      intDec_nonneg_eq (Rat.num_nonneg.mpr hx)] at hc
    exact hhead _ [] c (by simpa using hc)
  · by_cases h2 : |x|.num < (|x|.den : ℤ)
    · rw [fraction_to_str, if_neg h1, if_pos h2, hxabs, hsign,
        List.nil_append, intDec_nonneg_eq (Rat.num_nonneg.mpr hx)] at hc
      exact hhead _ _ c hc
    · have hip : (0 : ℤ) ≤ Int.fdiv x.num (x.den : ℤ) := by
        rw [fdiv_num_den_eq_floor]
        exact Int.floor_nonneg.mpr hx
      have hrne := rem_ne_zero h1
      rw [fraction_to_str, if_neg h1, if_neg h2, hxabs, hsign,
        if_neg (hxabs ▸ hrne), List.nil_append,
        intDec_nonneg_eq hip] at hc
      exact hhead _ _ c hc

/-- A negative rational renders as `-` followed by the rendering of its
absolute value. -/
theorem fraction_to_str_neg {x : ℚ} (hneg : x < 0) :
    fraction_to_str x = '-' :: fraction_to_str (-x) := by
  have habs : |x| = -x := abs_of_neg hneg
  have habs' : |(-x)| = -x := abs_of_nonneg (by linarith)
  have hden : (-x).den = x.den := Rat.neg_den x
  have hsign : (if x < 0 then ['-'] else ([] : List Char)) = ['-'] :=
    if_pos hneg
  have hsign' : (if -x < 0 then ['-'] else ([] : List Char)) = [] :=
    if_neg (by linarith)
  by_cases h1 : x.den = 1
  · rw [fraction_to_str, fraction_to_str, if_pos h1, if_pos (hden.trans h1)]
    have hnum : x.num < 0 := Rat.num_neg.mpr hneg
    rw [intDec, if_pos hnum, Rat.neg_num,
      intDec_nonneg_eq (by omega : (0:ℤ) ≤ -x.num)]
    congr 2
    omega
  · rw [fraction_to_str, fraction_to_str, if_neg h1,
      if_neg (fun h => h1 (hden ▸ h)), habs, habs', hsign, hsign']
    by_cases h2 : (-x).num < (((-x).den : ℤ))
    · rw [if_pos h2, if_pos h2]
      rfl
    · rw [if_neg h2, if_neg h2]
      by_cases h3 : -x - (Int.fdiv (-x).num ((-x).den : ℤ) : ℚ) = 0
      · rw [if_pos h3, if_pos h3]
        rfl
      · rw [if_neg h3, if_neg h3]
        rfl

/-- `numutil`'s round-trip invariant: `parse(format(x)) == x` exactly,
for every rational `x`. -/
theorem parse_format_roundtrip (x : ℚ) :
    parse_fraction_str (fraction_to_str x) = some x := by
  by_cases hx : 0 ≤ x
  · rw [parse_fraction_str]
    simp only [stripWs_eq_self (fraction_to_str_not_space x)]
    rw [if_neg (fraction_to_str_ne_nil x), if_neg (by
      intro h
      have := fraction_to_str_head_digit hx '-' h
      exact absurd this (by decide))]
    exact parseCore_fraction_to_str hx
  · have hneg : x < 0 := not_le.mp hx
    have hx' : (0:ℚ) ≤ -x := by linarith
    have hns : ∀ c ∈ '-' :: fraction_to_str (-x), isSpaceChar c = false := by
      intro c hc
      rcases List.mem_cons.mp hc with rfl | hc
      · decide
      · exact fraction_to_str_not_space (-x) c hc
    rw [parse_fraction_str, fraction_to_str_neg hneg]
    simp only [stripWs_eq_self hns]
    rw [if_neg (by simp), if_pos (by simp)]
    simp only [List.tail_cons, parseCore_fraction_to_str hx',
      Option.map_some', neg_neg]

/-! ### `expr.py`: expression trees, evaluation, canonical keys, rendering -/

/-- The four binary operators of `expr.py`. -/
inductive Op
  | add
  | sub
  | mul
  | div
deriving DecidableEq, Repr

/-- Operator precedence table `PREC`. -/
def PREC : Op → ℕ
  | .add => 1
  | .sub => 1
  | .mul => 2
  | .div => 2

/-- Expression nodes: `Num` leaves and `BinOp` internal nodes. -/
inductive Node
  | num (v : ℚ)
  | binOp (op : Op) (l r : Node)
deriving DecidableEq, Repr

/-- `evaluate()`: exact rational evaluation; `ZeroDivisionError` on a zero
divisor is `none`.  `Num.evaluate`'s `Fraction(v.numerator, v.denominator)`
re-normalizes, which is the identity on `ℚ`. -/
def evaluate : Node → Option ℚ
  | .num v => some v
  | .binOp op l r =>
    match evaluate l, evaluate r with
    | some lv, some rv =>
      match op with
      | .add => some (lv + rv)
      | .sub => some (lv - rv)
      | .mul => some (lv * rv)
      | .div => if rv = 0 then none else some (lv / rv)
    | _, _ => none

/-- Python's `<` on strings: lexicographic comparison by code point, a
proper prefix ordering before the longer string. -/
def strLt : List Char → List Char → Bool
  | [], [] => false
  | [], _ :: _ => true
  | _ :: _, [] => false
  | a :: as, b :: bs =>
    if a < b then true else if b < a then false else strLt as bs

/-- Python `sorted([a, b])` on two strings (ascending, stable). -/
def sortPair (a b : List Char) : List Char × List Char :=
  if strLt b a then (b, a) else (a, b)

/-- `canonical_key()` (`Num.key` / `BinOp.key`): `N:{num}/{den}` for leaves,
sorted child keys in `A:(a,b)` / `M:(a,b)` for the commutative operators,
ordered child keys in `S:[l,r]` / `D:[l,r]` for the order-sensitive ones. -/
def key : Node → List Char
  | .num v => 'N' :: ':' :: (intDec v.num ++ '/' :: intDec (v.den : ℤ))
  | .binOp .add l r =>
    'A' :: ':' :: '(' ::
      ((sortPair (key l) (key r)).1 ++ ',' :: ((sortPair (key l) (key r)).2 ++ [')']))
  | .binOp .mul l r =>
    'M' :: ':' :: '(' ::
      ((sortPair (key l) (key r)).1 ++ ',' :: ((sortPair (key l) (key r)).2 ++ [')']))
  | .binOp .sub l r =>
    'S' :: ':' :: '[' :: (key l ++ ',' :: (key r ++ [']']))
  | .binOp .div l r =>
    'D' :: ':' :: '[' :: (key l ++ ',' :: (key r ++ [']']))

/-- `needs_paren` from `BinOp.to_str`: parenthesize a child of strictly
lower precedence, or a `-`/`/` child identical to its `-`/`/` parent. -/
def needs_paren (child : Node) (parentOp : Op) : Bool :=
  match child with
  | .num _ => false
  | .binOp cop _ _ =>
    if PREC cop < PREC parentOp then true
    else if (parentOp = Op.sub ∨ parentOp = Op.div) ∧ cop = parentOp then true
    else false

/-- Display glyphs: `×` for `*`, `÷` for `/`. -/
def opSymbol : Op → Char
  | .add => '+'
  | .sub => '-'
  | .mul => '×'
  | .div => '÷'

/-- `to_str()`: infix rendering with display glyphs, `( {s} )` around
children that need parentheses, single spaces between tokens. -/
def to_str : Node → List Char
  | .num v => fraction_to_str v
  | .binOp op l r =>
    (if needs_paren l op then '(' :: ' ' :: (to_str l ++ [' ', ')']) else to_str l) ++
      ' ' :: opSymbol op :: ' ' ::
        (if needs_paren r op then '(' :: ' ' :: (to_str r ++ [' ', ')']) else to_str r)

/-! ### `grade.py`: tokenizer, shunting-yard parser, RPN evaluator, grading -/

/-- Python `str.split()` with no argument: split on whitespace runs,
dropping empty fields. -/
def splitWs : List Char → List Char → List (List Char)
  | cur, [] => if cur = [] then [] else [cur.reverse]
  | cur, c :: cs =>
    if isSpaceChar c then
      if cur = [] then splitWs [] cs else cur.reverse :: splitWs [] cs
    else splitWs (c :: cur) cs

/-- `_normalize_tokens`: strip each token, drop empties, map the display
glyphs `×`/`÷` to `*`/`/`. -/
def normalizeTokens : List (List Char) → List (List Char)
  | [] => []
  | t :: ts =>
    let t' := stripWs t
    if t' = [] then normalizeTokens ts
    else
      (if t' = ['×'] then ['*'] else if t' = ['÷'] then ['/'] else t') ::
        normalizeTokens ts

/-- `_to_tokens` on an expression (numbering/label prefixes already absent,
as on a bare rendered expression): strip, drop one trailing `=`, split on
whitespace, normalize glyphs. -/
def toTokens (s : List Char) : List (List Char) :=
  let s1 := stripWs s
  let s2 := if s1.getLast? = some '=' then stripWs s1.dropLast else s1
  normalizeTokens (splitWs [] s2)

/-- The grading-side precedence table keyed by operator token. -/
def tokPrec? (t : List Char) : Option ℕ :=
  if t = ['+'] then some 1
  else if t = ['-'] then some 1
  else if t = ['*'] then some 2
  else if t = ['/'] then some 2
  else none

/-- The `while ops and ops[-1] in PREC and PREC[ops[-1]] >= PREC[tok]` pop
loop: returns the popped operators (in pop order) and the remaining stack. -/
def popGE (p : ℕ) : List (List Char) → List (List Char) × List (List Char)
  | [] => ([], [])
  | o :: os =>
    match tokPrec? o with
    | some q =>
      if p ≤ q then
        let rest := popGE p os
        (o :: rest.1, rest.2)
      else ([], o :: os)
    | none => ([], o :: os)

/-- The `while ops and ops[-1] != '('` pop loop for a closing parenthesis:
`none` if no `(` is found (`括号不匹配`). -/
def popToParen : List (List Char) → Option (List (List Char) × List (List Char))
  | [] => none
  | o :: os =>
    if o = ['('] then some ([], os)
    else (popToParen os).map (fun pr => (o :: pr.1, pr.2))

/-- `_shunting_yard`: infix tokens to RPN; `ValueError` is `none`.
The operator stack is held head-topmost. -/
def shuntLoop : List (List Char) → List (List Char) → List (List Char) →
    Option (List (List Char))
  | [], ops, out =>
    if  (['('] : List Char) ∈ ops ∨ ([')'] : List Char) ∈ ops then none
    else some (out ++ ops)
  | tok :: rest, ops, out =>
    if (parse_fraction_str tok).isSome then shuntLoop rest ops (out ++ [tok])
    else
      match tokPrec? tok with
      | some p =>
        let popped := popGE p ops
        shuntLoop rest (tok :: popped.2) (out ++ popped.1)
      | none =>
        if tok = ['('] then shuntLoop rest (tok :: ops) out
        else if tok = [')'] then
          match popToParen ops with
          | none => none
          | some (popped, ops') => shuntLoop rest ops' (out ++ popped)
        else none

/-- `_shunting_yard` entry point. -/
def shunting_yard (tokens : List (List Char)) : Option (List (List Char)) :=
  shuntLoop tokens [] []

/-- `_eval_rpn`: evaluate an RPN token list over exact rationals; the value
stack is held head-topmost.  `none` covers malformed tokens, operand
underflow, a final stack size ≠ 1, and `ZeroDivisionError`. -/
def evalRPNLoop : List (List Char) → List ℚ → Option ℚ
  | [], st =>
    match st with
    | [v] => some v
    | _ => none
  | tok :: rest, st =>
    if tok = ['+'] ∨ tok = ['-'] ∨ tok = ['*'] ∨ tok = ['/'] then
      match st with
      | b :: a :: st' =>
        if tok = ['+'] then evalRPNLoop rest ((a + b) :: st')
        else if tok = ['-'] then evalRPNLoop rest ((a - b) :: st')
        else if tok = ['*'] then evalRPNLoop rest ((a * b) :: st')
        else if b = 0 then none
        else evalRPNLoop rest ((a / b) :: st')
      | _ => none
    else
      match parse_fraction_str tok with
      | some v => evalRPNLoop rest (v :: st)
      | none => none

/-- `_eval_rpn` entry point. -/
def eval_rpn (rpn : List (List Char)) : Option ℚ := evalRPNLoop rpn []

/-- `_eval_expr_line` on an expression line (tokenize, parse, evaluate). -/
def eval_expr_line (s : List Char) : Option ℚ :=
  match shunting_yard (toTokens s) with
  | none => none
  | some rpn => eval_rpn rpn

/-- Evaluate every (prefix-stripped, nonblank) problem line; the first
failure aborts the whole run, exactly as the uncaught exception in
`grade`'s `expected`-building loop does. -/
def evalAll : List (List Char) → Option (List ℚ)
  | [] => some []
  | l :: ls =>
    match eval_expr_line l with
    | none => none
    | some v => (evalAll ls).map (fun vs => v :: vs)

/-- The index-aligned comparison loop of `grade`: walks expected values and
answer lines together carrying the 1-based index; a submitted answer that
fails to parse, or parses to a value different from the expected one, goes
to the wrong list; expected values beyond the answers all go to the wrong
list; surplus answer lines are ignored. -/
def compareAt : List ℚ → List (List Char) → ℕ → List ℕ × List ℕ
  | [], _, _ => ([], [])
  | _ :: es, [], i =>
    let rest := compareAt es [] (i + 1)
    (rest.1, i :: rest.2)
  | e :: es, a :: as, i =>
    let rest := compareAt es as (i + 1)
    match parse_fraction_str a with
    | none => (rest.1, i :: rest.2)
    | some v => if v = e then (i :: rest.1, rest.2) else (rest.1, i :: rest.2)

/-- `fmt_ids`: `"(i1, i2, …)"`, `"()"` when empty. -/
def fmtIds : List ℕ → List Char
  | [] => ['(', ')']
  | i :: is =>
    '(' :: (natDec i ++ (is.foldl (fun acc j => acc ++ ',' :: ' ' :: natDec j) []) ++ [')'])

/-- The two report lines `Correct: n (…)` / `Wrong: n (…)`. -/
def reportLines (co wr : List ℕ) : List Char × List Char :=
  (('C' :: 'o' :: 'r' :: 'r' :: 'e' :: 'c' :: 't' :: ':' :: ' ' :: natDec co.length) ++
     ' ' :: fmtIds co,
   ('W' :: 'r' :: 'o' :: 'n' :: 'g' :: ':' :: ' ' :: natDec wr.length) ++
     ' ' :: fmtIds wr)

/-- `grade` on in-memory artifacts (lines of the two files, with any
numbering/label prefixes already absent): drop blank lines, evaluate every
problem line (an uncaught failure there aborts the run with no report),
compare index-aligned, and render the two report lines.  Returns the
correct ids, the wrong ids and the report. -/
def grade (exLines ansLines : List (List Char)) :
    Option (List ℕ × List ℕ × List Char × List Char) :=
  let ex := (exLines.map stripWs).filter (fun l => ¬ l = [])
  let ans := (ansLines.map stripWs).filter (fun l => ¬ l = [])
  match evalAll ex with
  | none => none
  | some expected =>
    let pr := compareAt expected ans 1
    some (pr.1, pr.2, (reportLines pr.1 pr.2).1, (reportLines pr.1 pr.2).2)

/-! ### `gen.py`: random leaves, constrained tree construction, generation -/

/-- `random.randint(a, b)` (inclusive bounds, `a ≤ b` at every call site in
`gen.py`/`numutil.py`) driven by the oracle `g` at draw index `k`. -/
def randint (a b : ℤ) (g : ℕ → ℕ) (k : ℕ) : ℤ :=
  a + (g k : ℤ) % (b - a + 1)

/-- `random.choice` index into a sequence of length `n`. -/
def choiceIdx (n : ℕ) (g : ℕ → ℕ) (k : ℕ) : ℕ := g k % n

/-- `OPS = ['+', '-', '*', '/']`. -/
def OPS : List Op := [.add, .sub, .mul, .div]

/-- `numutil.make_natural`: uniform natural in `[0, r-1]` as a `Fraction`;
`ValueError` when `r < 1` is `none`.  Consumes one draw. -/
def make_natural (r : ℤ) (g : ℕ → ℕ) (k : ℕ) : Option (ℚ × ℕ) :=
  if r < 1 then none
  else some ((randint 0 (max 0 (r - 1)) g k : ℚ), k + 1)

/-- The denominator draw of `make_proper_fraction` (`randint(2, max(2, r-1))`). -/
def mpfDen (r : ℤ) (g : ℕ → ℕ) (k : ℕ) : ℤ :=
  randint 2 (max 2 (r - 1)) g k

/-- The numerator draw of `make_proper_fraction` (`randint(1, den-1)`). -/
def mpfNum (r : ℤ) (g : ℕ → ℕ) (k : ℕ) : ℤ :=
  randint 1 (mpfDen r g k - 1) g (k + 1)

/-- `numutil.make_proper_fraction`: `Fraction(num, den)` from the two draws,
or the degenerate `Fraction(0, 1)` when `r < 2` (no draws consumed). -/
def make_proper_fraction (r : ℤ) (g : ℕ → ℕ) (k : ℕ) : ℚ × ℕ :=
  if r < 2 then ((0 : ℚ), k)
  else ((mpfNum r g k : ℚ) / (mpfDen r g k : ℚ), k + 2)

/-- `numutil.make_mixed_fraction`: integer part in `[0, r-1]` plus a proper
fraction; degrades to `make_natural` when `r < 2`. -/
def make_mixed_fraction (r : ℤ) (g : ℕ → ℕ) (k : ℕ) : Option (ℚ × ℕ) :=
  if r < 2 then make_natural r g k
  else
    let ip := randint 0 (max 0 (r - 1)) g k
    let pf := make_proper_fraction r g (k + 1)
    some ((ip : ℚ) + pf.1, pf.2)

/-- `gen.random_leaf`: choose among natural / proper fraction / mixed
(only natural when `r < 2`); a zero proper fraction falls back to a fresh
natural. -/
def random_leaf (r : ℤ) (g : ℕ → ℕ) (k : ℕ) : Option (Node × ℕ) :=
  if r < 2 then
    match make_natural r g (k + 1) with
    | none => none
    | some (v, k') => some (.num v, k')
  else
    match choiceIdx 3 g k with
    | 0 =>
      match make_natural r g (k + 1) with
      | none => none
      | some (v, k') => some (.num v, k')
    | 1 =>
      if (make_proper_fraction r g (k + 1)).1 = 0 then
        match make_natural r g (make_proper_fraction r g (k + 1)).2 with
        | none => none
        | some (v, k') => some (.num v, k')
      else
        some (.num (make_proper_fraction r g (k + 1)).1,
          (make_proper_fraction r g (k + 1)).2)
    | _ =>
      match make_mixed_fraction r g (k + 1) with
      | none => none
      | some (v, k') => some (.num v, k')

/-- `gen.valid_sub`: `left >= right`. -/
def valid_sub (left right : ℚ) : Bool := right ≤ left

/-- `gen.valid_div`: divisor nonzero and quotient strictly between 0 and 1. -/
def valid_div (left right : ℚ) : Bool :=
  if right = 0 then false else decide (0 < left / right ∧ left / right < 1)

/-- The first `for _ in range(100)` loop of `build_expr_with_ops`: pick an
operator for two leaves, retrying with fresh leaves when a `-`/`/`
constraint fails; after 100 failures fall back to `+` on the last leaves. -/
def buildFirst : ℕ → Node → Node → (ℕ → ℕ) → ℕ → ℤ → Option (Node × ℕ)
  | 0, l, r, _, k, _ => some (.binOp .add l r, k)
  | fuel + 1, l, r, g, k, r0 =>
    match OPS.getD (choiceIdx 4 g k) .add with
    | .sub =>
      match evaluate l with
      | none => none
      | some lv =>
        match evaluate r with
        | none => none
        | some rv =>
          if valid_sub lv rv then some (.binOp .sub l r, k + 1)
          else
            match random_leaf r0 g (k + 1) with
            | none => none
            | some (l', k1) =>
              match random_leaf r0 g k1 with
              | none => none
              | some (r', k2) => buildFirst fuel l' r' g k2 r0
    | .div =>
      match evaluate l with
      | none => none
      | some lv =>
        match evaluate r with
        | none => none
        | some rv =>
          if valid_div lv rv then some (.binOp .div l r, k + 1)
          else
            match random_leaf r0 g (k + 1) with
            | none => none
            | some (l', k1) =>
              match random_leaf r0 g k1 with
              | none => none
              | some (r', k2) => buildFirst fuel l' r' g k2 r0
    | op => some (.binOp op l r, k + 1)

/-- One `for _ in range(50)` attachment loop of `build_expr_with_ops`: try
the new leaf as right then left operand for `-`/`/`, retry with a fresh
leaf on failure; after 50 failures fall back to `+` with the tree on the
left. -/
def extendOnce : ℕ → Node → Node → (ℕ → ℕ) → ℕ → ℤ → Option (Node × ℕ)
  | 0, node, leaf, _, k, _ => some (.binOp .add node leaf, k)
  | fuel + 1, node, leaf, g, k, r0 =>
    match OPS.getD (choiceIdx 4 g k) .add with
    | .sub =>
      match evaluate node with
      | none => none
      | some nv =>
        match evaluate leaf with
        | none => none
        | some lv =>
          if valid_sub nv lv then some (.binOp .sub node leaf, k + 1)
          else if valid_sub lv nv then some (.binOp .sub leaf node, k + 1)
          else
            match random_leaf r0 g (k + 1) with
            | none => none
            | some (leaf', k1) => extendOnce fuel node leaf' g k1 r0
    | .div =>
      match evaluate node with
      | none => none
      | some nv =>
        match evaluate leaf with
        | none => none
        | some lv =>
          if valid_div nv lv then some (.binOp .div node leaf, k + 1)
          else if valid_div lv nv then some (.binOp .div leaf node, k + 1)
          else
            match random_leaf r0 g (k + 1) with
            | none => none
            | some (leaf', k1) => extendOnce fuel node leaf' g k1 r0
    | op => some (.binOp op node leaf, k + 1)

/-- The `for _ in range(n_ops - 1)` growth loop. -/
def extendLoop : ℕ → Node → (ℕ → ℕ) → ℕ → ℤ → Option (Node × ℕ)
  | 0, node, _, k, _ => some (node, k)
  | m + 1, node, g, k, r0 =>
    match random_leaf r0 g k with
    | none => none
    | some (leaf, k1) =>
      match extendOnce 50 node leaf g k1 r0 with
      | none => none
      | some (node', k2) => extendLoop m node' g k2 r0

/-- `gen.build_expr_with_ops`: two leaves, a first constrained combination
(fuel 100), then `n_ops - 1` constrained attachments (fuel 50 each).  The
`assert n_ops >= 1` is `none` on violation. -/
def build_expr_with_ops (r : ℤ) (nOps : ℕ) (g : ℕ → ℕ) (k : ℕ) :
    Option (Node × ℕ) :=
  if nOps < 1 then none
  else
    match random_leaf r g k with
    | none => none
    | some (l, k1) =>
      match random_leaf r g k1 with
      | none => none
      | some (r', k2) =>
        match buildFirst 100 l r' g k2 r with
        | none => none
        | some (node, k3) => extendLoop (nOps - 1) node g k3 r

/-- The `while len(items) < target and attempts < max_attempts` loop of
`gen.generate`, with `fuel` the remaining attempt budget: draw `n_ops`,
build a candidate, skip it if its key is already in the seen-set, skip it
(without touching the seen-set) if evaluation hits `ZeroDivisionError`,
otherwise record its key and append the problem. -/
def genLoop (r : ℤ) (target : ℕ) (g : ℕ → ℕ) :
    ℕ → ℕ → List (List Char) → List (Node × ℚ) → Option (List (Node × ℚ))
  | 0, _, _, items => some items
  | fuel + 1, k, seen, items =>
    if target ≤ items.length then some items
    else
      match build_expr_with_ops r (randint 1 3 g k).toNat g (k + 1) with
      | none => none
      | some (e, k') =>
        if key e ∈ seen then genLoop r target g fuel k' seen items
        else
          match evaluate e with
          | none => genLoop r target g fuel k' seen items
          | some v => genLoop r target g fuel k' (key e :: seen) (items ++ [(e, v)])

/-- `gen.generate` (file I/O aside): validate `r`/`n`, run the attempt loop
with budget `n * 200`, and return the accepted `(tree, answer)` pairs in
order.  `ValueError` on bad arguments is `none`. -/
def generate (r n : ℤ) (g : ℕ → ℕ) : Option (List (Node × ℚ)) :=
  if r < 1 then none
  else if n < 1 then none
  else genLoop r n.toNat g (n.toNat * 200) 0 [] []

/-! ### Helpers for the claims about `parse_fraction_str`'s accepted shapes -/

theorem natDec_append_head {n : ℕ} {rest : List Char} {c : Char}
    (h : (natDec n ++ rest).head? = some c) : c ∈ digitChars := by
  cases hd : natDec n with
  | nil => exact absurd hd (natDec_ne_nil n)
  | cons d ds =>
    rw [hd] at h
    simp only [List.cons_append, List.head?_cons, Option.some.injEq] at h
    rw [← h]
    exact natDec_mem d (by rw [hd]; exact List.mem_cons_self d ds)

theorem parseCore_nil : parseCore [] = none := by decide

/-- Lift a `parseCore` result to `parse_fraction_str` when the literal has
no surrounding whitespace and starts with a digit. -/
theorem parse_of_parseCore {s : List Char} {v : ℚ}
    (hs : ∀ c ∈ s, isSpaceChar c = false)
    (hhead : ∀ c, s.head? = some c → c ∈ digitChars)
    (hcore : parseCore s = some v) :
    parse_fraction_str s = some v := by
  have hne : s ≠ [] := by
    intro h
    rw [h, parseCore_nil] at hcore
    cases hcore
  rw [parse_fraction_str]
  simp only [stripWs_eq_self hs]
  rw [if_neg hne, if_neg (by
    intro h
    exact absurd (hhead '-' h) (by decide))]
  exact hcore

/-- Lift a `parseCore` result through a single leading `-`. -/
theorem parse_neg_of_parseCore {s : List Char} {v : ℚ}
    (hs : ∀ c ∈ s, isSpaceChar c = false)
    (hcore : parseCore s = some v) :
    parse_fraction_str ('-' :: s) = some (-v) := by
  have hns : ∀ c ∈ '-' :: s, isSpaceChar c = false := by
    intro c hc
    rcases List.mem_cons.mp hc with rfl | hc
    · decide
    · exact hs c hc
  rw [parse_fraction_str]
  simp only [stripWs_eq_self hns]
  rw [if_neg (by simp), if_pos (by simp)]
  simp only [List.tail_cons, hcore, Option.map_some']

theorem intDec_natCast (A : ℕ) : intDec (A : ℤ) = natDec A := by
  rw [intDec_nonneg_eq (Int.natCast_nonneg A)]
  simp

/-- All characters of a rendered mixed literal are non-space. -/
theorem mixed_literal_not_space {i a b : ℤ} {sep : Char}
    (hsep : isSpaceChar sep = false) :
    ∀ c ∈ intDec i ++ sep :: (intDec a ++ '/' :: intDec b),
      isSpaceChar c = false := by
  intro c hc
  simp only [List.mem_append, List.mem_cons] at hc
  rcases hc with hc | rfl | hc | rfl | hc
  · exact intDec_not_space c hc
  · exact hsep
  · exact intDec_not_space c hc
  · decide
  · exact intDec_not_space c hc

/-! ### Helpers for the claims about the random draws -/

theorem randint_bounds {a b : ℤ} (h : a ≤ b) (g : ℕ → ℕ) (k : ℕ) :
    a ≤ randint a b g k ∧ randint a b g k ≤ b := by
  unfold randint
  have h1 : (0 : ℤ) < b - a + 1 := by omega
  have h2 := Int.emod_nonneg (g k : ℤ) (by omega : b - a + 1 ≠ 0)
  have h3 := Int.emod_lt_of_pos (g k : ℤ) h1
  omega

theorem randint_hits {a b v : ℤ} (h1 : a ≤ v) (h2 : v ≤ b) (k : ℕ) :
    randint a b (fun _ => (v - a).toNat) k = v := by
  unfold randint
  have hcast : (((v - a).toNat : ℕ) : ℤ) = v - a := Int.toNat_of_nonneg (by omega)
  rw [hcast, Int.emod_eq_of_lt (by omega) (by omega)]
  omega

/-! ### The generator's structural invariant (claims C5–C7) -/

/-- The acceptance constraints of `gen.py` read off every internal node:
each `-` node has `left.evaluate() ≥ right.evaluate()`, each `/` node has a
nonzero divisor and a quotient strictly between 0 and 1 (with the child
evaluations defined). -/
def constrained : Node → Prop
  | .num _ => True
  | .binOp op l r =>
    constrained l ∧ constrained r ∧
      match op with
      | .sub => ∃ lv rv, evaluate l = some lv ∧ evaluate r = some rv ∧ rv ≤ lv
      | .div => ∃ lv rv, evaluate l = some lv ∧ evaluate r = some rv ∧
          rv ≠ 0 ∧ 0 < lv / rv ∧ lv / rv < 1
      | _ => True

theorem constrained_isSome {t : Node} (h : constrained t) :
    ∃ v, evaluate t = some v := by
  induction t with
  | num v => exact ⟨v, rfl⟩
  | binOp op l r ihl ihr =>
    obtain ⟨hl, hr, hop⟩ := h
    obtain ⟨lv, hlv⟩ := ihl hl
    obtain ⟨rv, hrv⟩ := ihr hr
    cases op with
    | add => exact ⟨lv + rv, by simp [evaluate, hlv, hrv]⟩
    | sub => exact ⟨lv - rv, by simp [evaluate, hlv, hrv]⟩
    | mul => exact ⟨lv * rv, by simp [evaluate, hlv, hrv]⟩
    | div =>
      obtain ⟨lv', rv', hlv', hrv', hne, _, _⟩ := hop
      rw [hrv] at hrv'
      injection hrv' with hrv''
      exact ⟨lv / rv, by simp [evaluate, hlv, hrv, hrv'' ▸ hne]⟩

theorem valid_sub_spec {a b : ℚ} (h : valid_sub a b = true) : b ≤ a := by
  simpa [valid_sub] using h

theorem valid_div_spec {a b : ℚ} (h : valid_div a b = true) :
    b ≠ 0 ∧ 0 < a / b ∧ a / b < 1 := by
  unfold valid_div at h
  split at h
  · cases h
  · next hb => exact ⟨hb, of_decide_eq_true h⟩

theorem some_pair_eq {α β : Type} {a : α} {b : β} {t : α} {k : β}
    (h : some (a, b) = some (t, k)) : t = a ∧ k = b := by
  injection h with h1
  injection h1 with h2 h3
  exact ⟨h2.symm, h3.symm⟩

theorem random_leaf_shape {r : ℤ} {g : ℕ → ℕ} {k : ℕ} {t : Node} {k' : ℕ}
    (h : random_leaf r g k = some (t, k')) : ∃ v, t = .num v := by
  unfold random_leaf at h
  split at h
  · split at h
    · cases h
    · obtain ⟨rfl, rfl⟩ := some_pair_eq h
      exact ⟨_, rfl⟩
  · split at h
    · split at h
      · cases h
      · obtain ⟨rfl, rfl⟩ := some_pair_eq h
        exact ⟨_, rfl⟩
    · split at h
      · split at h
        · cases h
        · obtain ⟨rfl, rfl⟩ := some_pair_eq h
          exact ⟨_, rfl⟩
      · obtain ⟨rfl, rfl⟩ := some_pair_eq h
        exact ⟨_, rfl⟩
    · split at h
      · cases h
      · obtain ⟨rfl, rfl⟩ := some_pair_eq h
        exact ⟨_, rfl⟩

theorem random_leaf_constrained {r : ℤ} {g : ℕ → ℕ} {k : ℕ} {t : Node} {k' : ℕ}
    (h : random_leaf r g k = some (t, k')) :
    constrained t ∧ ∃ v, evaluate t = some v := by
  obtain ⟨v, rfl⟩ := random_leaf_shape h
  exact ⟨trivial, v, rfl⟩

theorem buildFirst_constrained :
    ∀ (fuel : ℕ) {l r : Node} {g : ℕ → ℕ} {k : ℕ} {r0 : ℤ} {t : Node} {k' : ℕ},
      constrained l → constrained r →
      buildFirst fuel l r g k r0 = some (t, k') → constrained t := by
  intro fuel
  induction fuel with
  | zero =>
    intro l r g k r0 t k' hl hr h
    obtain ⟨rfl, rfl⟩ := some_pair_eq h
    exact ⟨hl, hr, trivial⟩
  | succ fuel ih =>
    intro l r g k r0 t k' hl hr h
    unfold buildFirst at h
    split at h
    · -- sub
      split at h
      · cases h
      · next lv hlv =>
        split at h
        · cases h
        · next rv hrv =>
          split at h
          · next hvs =>
              obtain ⟨rfl, rfl⟩ := some_pair_eq h
              exact ⟨hl, hr, lv, rv, hlv, hrv, valid_sub_spec hvs⟩
          · split at h
            · cases h
            · next l2 k1 hl2 =>
              split at h
              · cases h
              · next r2 k2 hr2 =>
                exact ih (random_leaf_constrained hl2).1 (random_leaf_constrained hr2).1 h
    · -- div
      split at h
      · cases h
      · next lv hlv =>
        split at h
        · cases h
        · next rv hrv =>
          split at h
          · next hvd =>
              obtain ⟨rfl, rfl⟩ := some_pair_eq h
              obtain ⟨hne, h0, h1'⟩ := valid_div_spec hvd
              exact ⟨hl, hr, lv, rv, hlv, hrv, hne, h0, h1'⟩
          · split at h
            · cases h
            · next l2 k1 hl2 =>
              split at h
              · cases h
              · next r2 k2 hr2 =>
                exact ih (random_leaf_constrained hl2).1 (random_leaf_constrained hr2).1 h
    · -- add / mul catch-all
      next op hop1 hop2 =>
      obtain ⟨rfl, rfl⟩ := some_pair_eq h
      refine ⟨hl, hr, ?_⟩
      cases hgd : OPS.getD (choiceIdx 4 g k) Op.add with
      | add => trivial
      | mul => trivial
      | sub => exact absurd hgd hop1
      | div => exact absurd hgd hop2

theorem extendOnce_constrained :
    ∀ (fuel : ℕ) {node leaf : Node} {g : ℕ → ℕ} {k : ℕ} {r0 : ℤ} {t : Node} {k' : ℕ},
      constrained node → constrained leaf →
      extendOnce fuel node leaf g k r0 = some (t, k') → constrained t := by
  intro fuel
  induction fuel with
  | zero =>
    intro node leaf g k r0 t k' hn hlf h
    obtain ⟨rfl, rfl⟩ := some_pair_eq h
    exact ⟨hn, hlf, trivial⟩
  | succ fuel ih =>
    intro node leaf g k r0 t k' hn hlf h
    unfold extendOnce at h
    split at h
    · -- sub
      split at h
      · cases h
      · next nv hnv =>
        split at h
        · cases h
        · next lv hlv =>
          split at h
          · next hvs =>
              obtain ⟨rfl, rfl⟩ := some_pair_eq h
              exact ⟨hn, hlf, nv, lv, hnv, hlv, valid_sub_spec hvs⟩
          · split at h
            · next hvs2 =>
                obtain ⟨rfl, rfl⟩ := some_pair_eq h
                exact ⟨hlf, hn, lv, nv, hlv, hnv, valid_sub_spec hvs2⟩
            · split at h
              · cases h
              · next lf2 k1 hlf2 =>
                exact ih hn (random_leaf_constrained hlf2).1 h
    · -- div
      split at h
      · cases h
      · next nv hnv =>
        split at h
        · cases h
        · next lv hlv =>
          split at h
          · next hvd =>
              obtain ⟨rfl, rfl⟩ := some_pair_eq h
              obtain ⟨hne, h0, h1'⟩ := valid_div_spec hvd
              exact ⟨hn, hlf, nv, lv, hnv, hlv, hne, h0, h1'⟩
          · split at h
            · next hvd2 =>
                obtain ⟨rfl, rfl⟩ := some_pair_eq h
                obtain ⟨hne, h0, h1'⟩ := valid_div_spec hvd2
                exact ⟨hlf, hn, lv, nv, hlv, hnv, hne, h0, h1'⟩
            · split at h
              · cases h
              · next lf2 k1 hlf2 =>
                exact ih hn (random_leaf_constrained hlf2).1 h
    · -- add / mul catch-all
      next op hop1 hop2 =>
      obtain ⟨rfl, rfl⟩ := some_pair_eq h
      refine ⟨hn, hlf, ?_⟩
      cases hgd : OPS.getD (choiceIdx 4 g k) Op.add with
      | add => trivial
      | mul => trivial
      | sub => exact absurd hgd hop1
      | div => exact absurd hgd hop2

theorem extendLoop_constrained :
    ∀ (m : ℕ) {node : Node} {g : ℕ → ℕ} {k : ℕ} {r0 : ℤ} {t : Node} {k' : ℕ},
      constrained node → extendLoop m node g k r0 = some (t, k') → constrained t := by
  intro m
  induction m with
  | zero =>
    intro node g k r0 t k' hn h
    obtain ⟨rfl, rfl⟩ := some_pair_eq h
    exact hn
  | succ m ih =>
    intro node g k r0 t k' hn h
    unfold extendLoop at h
    split at h
    · cases h
    · next leaf k1 hleaf =>
      split at h
      · cases h
      · next node' k2 hnode' =>
        exact ih (extendOnce_constrained 50 hn (random_leaf_constrained hleaf).1 hnode') h

theorem build_expr_constrained {r : ℤ} {nOps : ℕ} {g : ℕ → ℕ} {k : ℕ}
    {t : Node} {k' : ℕ} (h : build_expr_with_ops r nOps g k = some (t, k')) :
    constrained t := by
  unfold build_expr_with_ops at h
  split at h
  · cases h
  · split at h
    · cases h
    · next l k1 hl =>
      split at h
      · cases h
      · next r2 k2 hr =>
        split at h
        · cases h
        · next node k3 hnode =>
          exact extendLoop_constrained _
            (buildFirst_constrained 100 (random_leaf_constrained hl).1
              (random_leaf_constrained hr).1 hnode) h

/-! ### Totality of the generator for valid arguments (claims C6–C7) -/

theorem make_natural_some {r : ℤ} (hr : 1 ≤ r) (g : ℕ → ℕ) (k : ℕ) :
    ∃ v, make_natural r g k = some (v, k + 1) := by
  unfold make_natural
  rw [if_neg (by omega)]
  exact ⟨_, rfl⟩

theorem random_leaf_ne_none {r : ℤ} (hr : 1 ≤ r) (g : ℕ → ℕ) (k : ℕ) :
    random_leaf r g k ≠ none := by
  intro h
  unfold random_leaf at h
  split at h
  · obtain ⟨v, hv⟩ := make_natural_some hr g (k + 1)
    rw [hv] at h
    cases h
  · next hge =>
    split at h
    · obtain ⟨v, hv⟩ := make_natural_some hr g (k + 1)
      rw [hv] at h
      cases h
    · split at h
      · obtain ⟨v, hv⟩ := make_natural_some hr g _
        rw [hv] at h
        cases h
      · cases h
    · split at h
      · next heq =>
        rw [make_mixed_fraction] at heq
        split at heq
        · obtain ⟨v, hv⟩ := make_natural_some hr g (k + 1)
          rw [hv] at heq
          cases heq
        · cases heq
      · cases h

theorem option_pair_of_ne_none {α β : Type} {o : Option (α × β)}
    (h : o ≠ none) : ∃ a b, o = some (a, b) := by
  cases o with
  | none => exact absurd rfl h
  | some p => exact ⟨p.1, p.2, rfl⟩

theorem random_leaf_some {r : ℤ} (hr : 1 ≤ r) (g : ℕ → ℕ) (k : ℕ) :
    ∃ v k2, random_leaf r g k = some (.num v, k2) := by
  obtain ⟨t, k2, ht⟩ := option_pair_of_ne_none (random_leaf_ne_none hr g k)
  obtain ⟨v, rfl⟩ := random_leaf_shape ht
  exact ⟨v, k2, ht⟩

theorem buildFirst_ne_none :
    ∀ (fuel : ℕ) {l r : Node} {g : ℕ → ℕ} {k : ℕ} {r0 : ℤ}, 1 ≤ r0 →
      (∃ lv, evaluate l = some lv) → (∃ rv, evaluate r = some rv) →
      buildFirst fuel l r g k r0 ≠ none := by
  intro fuel
  induction fuel with
  | zero =>
    intro l r g k r0 _ _ _ h
    cases h
  | succ fuel ih =>
    intro l r g k r0 hr0 hl hr h
    obtain ⟨lv, hlv⟩ := hl
    obtain ⟨rv, hrv⟩ := hr
    unfold buildFirst at h
    split at h
    · split at h
      · next heq => rw [hlv] at heq; cases heq
      · split at h
        · next heq => rw [hrv] at heq; cases heq
        · split at h
          · cases h
          · split at h
            · next heq => exact random_leaf_ne_none hr0 g _ heq
            · next l2 k1 heq =>
              split at h
              · next heq2 => exact random_leaf_ne_none hr0 g _ heq2
              · next r2 k2 heq2 =>
                obtain ⟨v1, rfl⟩ := random_leaf_shape heq
                obtain ⟨v2, rfl⟩ := random_leaf_shape heq2
                exact ih hr0 (⟨v1, rfl⟩ : ∃ w, evaluate (Node.num v1) = some w)
                  (⟨v2, rfl⟩ : ∃ w, evaluate (Node.num v2) = some w) h
    · split at h
      · next heq => rw [hlv] at heq; cases heq
      · split at h
        · next heq => rw [hrv] at heq; cases heq
        · split at h
          · cases h
          · split at h
            · next heq => exact random_leaf_ne_none hr0 g _ heq
            · next l2 k1 heq =>
              split at h
              · next heq2 => exact random_leaf_ne_none hr0 g _ heq2
              · next r2 k2 heq2 =>
                obtain ⟨v1, rfl⟩ := random_leaf_shape heq
                obtain ⟨v2, rfl⟩ := random_leaf_shape heq2
                exact ih hr0 (⟨v1, rfl⟩ : ∃ w, evaluate (Node.num v1) = some w)
                  (⟨v2, rfl⟩ : ∃ w, evaluate (Node.num v2) = some w) h
    · cases h

theorem extendOnce_ne_none :
    ∀ (fuel : ℕ) {node leaf : Node} {g : ℕ → ℕ} {k : ℕ} {r0 : ℤ}, 1 ≤ r0 →
      (∃ nv, evaluate node = some nv) → (∃ lv, evaluate leaf = some lv) →
      extendOnce fuel node leaf g k r0 ≠ none := by
  intro fuel
  induction fuel with
  | zero =>
    intro node leaf g k r0 _ _ _ h
    cases h
  | succ fuel ih =>
    intro node leaf g k r0 hr0 hn hlf h
    obtain ⟨nv, hnv⟩ := hn
    obtain ⟨lv, hlv⟩ := hlf
    unfold extendOnce at h
    split at h
    · split at h
      · next heq => rw [hnv] at heq; cases heq
      · split at h
        · next heq => rw [hlv] at heq; cases heq
        · split at h
          · cases h
          · split at h
            · cases h
            · split at h
              · next heq => exact random_leaf_ne_none hr0 g _ heq
              · next lf2 k1 heq =>
                obtain ⟨v1, rfl⟩ := random_leaf_shape heq
                exact ih hr0 ⟨nv, hnv⟩
                  (⟨v1, rfl⟩ : ∃ w, evaluate (Node.num v1) = some w) h
    · split at h
      · next heq => rw [hnv] at heq; cases heq
      · split at h
        · next heq => rw [hlv] at heq; cases heq
        · split at h
          · cases h
          · split at h
            · cases h
            · split at h
              · next heq => exact random_leaf_ne_none hr0 g _ heq
              · next lf2 k1 heq =>
                obtain ⟨v1, rfl⟩ := random_leaf_shape heq
                exact ih hr0 ⟨nv, hnv⟩
                  (⟨v1, rfl⟩ : ∃ w, evaluate (Node.num v1) = some w) h
    · cases h

theorem extendLoop_ne_none :
    ∀ (m : ℕ) {node : Node} {g : ℕ → ℕ} {k : ℕ} {r0 : ℤ}, 1 ≤ r0 →
      constrained node → extendLoop m node g k r0 ≠ none := by
  intro m
  induction m with
  | zero =>
    intro node g k r0 _ _ h
    cases h
  | succ m ih =>
    intro node g k r0 hr0 hc h
    unfold extendLoop at h
    split at h
    · next heq => exact random_leaf_ne_none hr0 g _ heq
    · next leaf k1 heq =>
      obtain ⟨v1, rfl⟩ := random_leaf_shape heq
      split at h
      · next heq2 =>
        exact extendOnce_ne_none 50 hr0 (constrained_isSome hc)
          (⟨v1, rfl⟩ : ∃ w, evaluate (Node.num v1) = some w) heq2
      · next node2 k2 heq2 =>
        exact ih hr0 (extendOnce_constrained 50 hc (random_leaf_constrained heq).1 heq2) h

theorem build_expr_ne_none {r : ℤ} (hr : 1 ≤ r) {nOps : ℕ} (hn : 1 ≤ nOps)
    (g : ℕ → ℕ) (k : ℕ) : build_expr_with_ops r nOps g k ≠ none := by
  intro h
  unfold build_expr_with_ops at h
  rw [if_neg (by omega)] at h
  split at h
  · next heq => exact random_leaf_ne_none hr g _ heq
  · next l k1 heq =>
    obtain ⟨v1, rfl⟩ := random_leaf_shape heq
    split at h
    · next heq2 => exact random_leaf_ne_none hr g _ heq2
    · next r2 k2 heq2 =>
      obtain ⟨v2, rfl⟩ := random_leaf_shape heq2
      split at h
      · next heq3 =>
        exact buildFirst_ne_none 100 hr
          (⟨v1, rfl⟩ : ∃ w, evaluate (Node.num v1) = some w)
          (⟨v2, rfl⟩ : ∃ w, evaluate (Node.num v2) = some w) heq3
      · next node k3 heq3 =>
        exact extendLoop_ne_none _ hr
          (buildFirst_constrained 100 (random_leaf_constrained heq).1
            (random_leaf_constrained heq2).1 heq3) h

theorem genLoop_ne_none {r : ℤ} (hr : 1 ≤ r) (target : ℕ) (g : ℕ → ℕ) :
    ∀ (fuel k : ℕ) (seen : List (List Char)) (items : List (Node × ℚ)),
      genLoop r target g fuel k seen items ≠ none := by
  intro fuel
  induction fuel with
  | zero =>
    intro k seen items h
    cases h
  | succ fuel ih =>
    intro k seen items h
    rw [genLoop] at h
    split at h
    · cases h
    · have hn : 1 ≤ (randint 1 3 g k).toNat := by
        have := randint_bounds (by norm_num : (1:ℤ) ≤ 3) g k
        omega
      split at h
      · next heq => exact build_expr_ne_none hr hn g (k + 1) heq
      · split at h
        · exact ih _ _ _ h
        · split at h
          · exact ih _ _ _ h
          · exact ih _ _ _ h

theorem genLoop_length {r : ℤ} {target : ℕ} {g : ℕ → ℕ} :
    ∀ (fuel k : ℕ) (seen : List (List Char)) (items : List (Node × ℚ))
      (out : List (Node × ℚ)),
      genLoop r target g fuel k seen items = some out →
      items.length ≤ target → out.length ≤ target := by
  intro fuel
  induction fuel with
  | zero =>
    intro k seen items out h hlen
    injection h with h1
    rw [← h1]
    exact hlen
  | succ fuel ih =>
    intro k seen items out h hlen
    rw [genLoop] at h
    split at h
    · injection h with h1
      rw [← h1]
      exact hlen
    · next htar =>
      split at h
      · cases h
      · split at h
        · exact ih _ _ _ _ h hlen
        · split at h
          · exact ih _ _ _ _ h hlen
          · refine ih _ _ _ _ h ?_
            rw [List.length_append]
            simp only [List.length_cons, List.length_nil]
            omega

theorem genLoop_nodup {r : ℤ} {target : ℕ} {g : ℕ → ℕ} :
    ∀ (fuel k : ℕ) (seen : List (List Char)) (items : List (Node × ℚ)),
      (items.map (fun p => key p.1)).Nodup →
      (∀ kk ∈ items.map (fun p => key p.1), kk ∈ seen) →
      ∀ out, genLoop r target g fuel k seen items = some out →
        (out.map (fun p => key p.1)).Nodup := by
  intro fuel
  induction fuel with
  | zero =>
    intro k seen items hnd hsub out h
    injection h with h1
    rw [← h1]
    exact hnd
  | succ fuel ih =>
    intro k seen items hnd hsub out h
    rw [genLoop] at h
    split at h
    · injection h with h1
      rw [← h1]
      exact hnd
    · split at h
      · cases h
      · split at h
        · exact ih _ _ _ hnd hsub out h
        · next hmem =>
          split at h
          · exact ih _ _ _ hnd hsub out h
          · next e k2 heq v hv =>
            refine ih _ _ _ ?_ ?_ out h
            · rw [List.map_append]
              simp only [List.map_cons, List.map_nil]
              rw [List.nodup_append]
              refine ⟨hnd, List.nodup_singleton _, ?_⟩
              intro a ha hb
              rw [List.mem_singleton] at hb
              exact hmem (hb ▸ hsub a ha)
            · intro kk hkk
              rw [List.map_append] at hkk
              rcases List.mem_append.mp hkk with hk1 | hk2
              · exact List.mem_cons_of_mem _ (hsub kk hk1)
              · simp only [List.map_cons, List.map_nil, List.mem_singleton] at hk2
                rw [hk2]
                exact List.mem_cons_self _ _

/-! ### Canonical-key machinery (claim C4)

The key strings are shown unambiguous by a bracket-depth argument: inside
any canonical key every comma sits at strictly positive bracket depth, so
the comma separating two concatenated keys is the unique one at depth
zero. -/

/-- Bracket-depth contribution of one character. -/
def depthDelta (c : Char) : ℤ :=
  if c = '(' ∨ c = '[' then 1 else if c = ')' ∨ c = ']' then -1 else 0

/-- Total bracket depth of a string. -/
def depthSum : List Char → ℤ
  | [] => 0
  | c :: cs => depthDelta c + depthSum cs

/-- Number of commas occurring at depth `≤ 0`, starting from depth `d`. -/
def shallowCommas : ℤ → List Char → ℕ
  | _, [] => 0
  | d, c :: cs =>
    (if c = ',' ∧ d ≤ 0 then 1 else 0) + shallowCommas (d + depthDelta c) cs

theorem depthSum_append (a b : List Char) :
    depthSum (a ++ b) = depthSum a + depthSum b := by
  induction a with
  | nil => simp [depthSum]
  | cons c cs ih =>
    simp only [List.cons_append, List.append_eq, depthSum, ih]
    ring

theorem shallowCommas_append (a b : List Char) (d : ℤ) :
    shallowCommas d (a ++ b) =
      shallowCommas d a + shallowCommas (d + depthSum a) b := by
  induction a generalizing d with
  | nil => simp [shallowCommas, depthSum]
  | cons c cs ih =>
    simp only [List.cons_append, List.append_eq, shallowCommas, depthSum]
    rw [ih]
    have hassoc : d + (depthDelta c + depthSum cs) = d + depthDelta c + depthSum cs := by
      ring
    rw [hassoc]
    omega

theorem shallowCommas_cons_notcomma {c : Char} (hc : c ≠ ',') (d : ℤ)
    (s : List Char) :
    shallowCommas d (c :: s) = shallowCommas (d + depthDelta c) s := by
  simp only [shallowCommas]
  rw [if_neg (fun hh => hc hh.1), zero_add]

theorem shallowCommas_cons_comma_pos {d : ℤ} (hd : 0 < d) (s : List Char) :
    shallowCommas d (',' :: s) = shallowCommas d s := by
  simp only [shallowCommas]
  rw [if_neg (fun hh => absurd hh.2 (not_le.mpr hd)), zero_add]
  have hcm : depthDelta ',' = 0 := by decide
  rw [hcm, add_zero]

/-- Strings made of depth-neutral, comma-free characters. -/
theorem flat_facts {s : List Char}
    (h : ∀ c ∈ s, depthDelta c = 0 ∧ c ≠ ',') :
    depthSum s = 0 ∧ ∀ d : ℤ, shallowCommas d s = 0 := by
  induction s with
  | nil => exact ⟨rfl, fun _ => rfl⟩
  | cons c cs ih =>
    obtain ⟨h1, h2⟩ := h c (List.mem_cons_self c cs)
    obtain ⟨ih1, ih2⟩ := ih (fun x hx => h x (List.mem_cons_of_mem c hx))
    refine ⟨by simp [depthSum, h1, ih1], fun d => ?_⟩
    rw [shallowCommas_cons_notcomma h2, h1, add_zero, ih2]

theorem intDec_flat (i : ℤ) : ∀ c ∈ intDec i, depthDelta c = 0 ∧ c ≠ ',' := by
  intro c hc
  have hd : ∀ x ∈ digitChars, depthDelta x = 0 ∧ x ≠ ',' := by decide
  rcases intDec_mem c hc with rfl | h
  · exact ⟨by decide, by decide⟩
  · exact hd c h

/-- The two invariants a canonical key satisfies. -/
def goodKey (s : List Char) : Prop :=
  depthSum s = 0 ∧ ∀ d : ℤ, 0 ≤ d → shallowCommas d s = 0

theorem key_good_num (v : ℚ) : goodKey (key (.num v)) := by
  have hflat : ∀ c ∈ key (.num v), depthDelta c = 0 ∧ c ≠ ',' := by
    intro c hc
    simp only [key, List.mem_cons, List.mem_append] at hc
    rcases hc with rfl | rfl | (hc | rfl | hc)
    · exact ⟨by decide, by decide⟩
    · exact ⟨by decide, by decide⟩
    · exact intDec_flat _ c hc
    · exact ⟨by decide, by decide⟩
    · exact intDec_flat _ c hc
  obtain ⟨h1, h2⟩ := flat_facts hflat
  exact ⟨h1, fun d _ => h2 d⟩

theorem key_good_composite {tg ob cb : Char} {kl kr : List Char}
    (htg : depthDelta tg = 0 ∧ tg ≠ ',')
    (hob : depthDelta ob = 1 ∧ ob ≠ ',')
    (hcb : depthDelta cb = -1 ∧ cb ≠ ',')
    (hl : goodKey kl) (hr : goodKey kr) :
    goodKey (tg :: ':' :: ob :: (kl ++ ',' :: (kr ++ [cb]))) := by
  obtain ⟨hl1, hl2⟩ := hl
  obtain ⟨hr1, hr2⟩ := hr
  have hcolon : depthDelta ':' = (0 : ℤ) := by decide
  have hcomma : depthDelta ',' = (0 : ℤ) := by decide
  constructor
  · simp only [depthSum, depthSum_append, htg.1, hob.1, hcolon, hcomma,
      hl1, hr1, hcb.1]
    ring
  · intro d hd
    rw [shallowCommas_cons_notcomma htg.2,
      shallowCommas_cons_notcomma (by decide : ':' ≠ ','),
      shallowCommas_cons_notcomma hob.2,
      shallowCommas_append]
    rw [htg.1, hcolon, hob.1, hl1]
    have hdep1 : d + 0 + 0 + 1 = d + 1 := by ring
    rw [hdep1]
    rw [hl2 (d + 1) (by omega), zero_add, add_zero]
    rw [shallowCommas_cons_comma_pos (by omega)]
    rw [shallowCommas_append, hr1, hr2 (d + 1) (by omega), zero_add, add_zero]
    rw [shallowCommas_cons_notcomma hcb.2]
    rfl

theorem sortPair_good {a b : List Char} (ha : goodKey a) (hb : goodKey b) :
    goodKey (sortPair a b).1 ∧ goodKey (sortPair a b).2 := by
  unfold sortPair
  split
  · exact ⟨hb, ha⟩
  · exact ⟨ha, hb⟩

theorem key_good : ∀ t : Node, goodKey (key t) := by
  intro t
  induction t with
  | num v => exact key_good_num v
  | binOp op l r ihl ihr =>
    cases op with
    | add =>
      exact key_good_composite (by decide) (by decide) (by decide)
        (sortPair_good ihl ihr).1 (sortPair_good ihl ihr).2
    | mul =>
      exact key_good_composite (by decide) (by decide) (by decide)
        (sortPair_good ihl ihr).1 (sortPair_good ihl ihr).2
    | sub =>
      exact key_good_composite (by decide) (by decide) (by decide) ihl ihr
    | div =>
      exact key_good_composite (by decide) (by decide) (by decide) ihl ihr

theorem shallowCommas_comma_count {d : ℤ} (hd : d ≤ 0) (s : List Char) :
    0 < shallowCommas d (',' :: s) := by
  simp only [shallowCommas]
  split
  · omega
  · next hcond => exact absurd hd (by simpa using hcond)

/-- The depth-zero comma separating two good keys is unique, so the split
is unambiguous. -/
theorem goodKey_sep_split {p q t1 t2 : List Char}
    (hp : goodKey p) (hq : goodKey q)
    (h : p ++ ',' :: t1 = q ++ ',' :: t2) : p = q ∧ t1 = t2 := by
  rcases List.append_eq_append_iff.mp h with ⟨a, ha1, ha2⟩ | ⟨c, hc1, hc2⟩
  · cases a with
    | nil =>
      rw [List.append_nil] at ha1
      rw [List.nil_append] at ha2
      exact ⟨ha1.symm, (List.cons.injEq _ _ _ _ ▸ ha2).2⟩
    | cons x xs =>
      rw [List.cons_append] at ha2
      obtain ⟨hx, -⟩ := List.cons.injEq _ _ _ _ ▸ ha2
      subst hx
      have h0 : shallowCommas 0 q = 0 := hq.2 0 le_rfl
      rw [ha1, shallowCommas_append, hp.2 0 le_rfl, hp.1] at h0
      norm_num at h0
      have hpos := shallowCommas_comma_count (le_refl (0 : ℤ)) xs
      omega
  · cases c with
    | nil =>
      rw [List.append_nil] at hc1
      rw [List.nil_append] at hc2
      exact ⟨hc1, ((List.cons.injEq _ _ _ _ ▸ hc2).2).symm⟩
    | cons x xs =>
      rw [List.cons_append] at hc2
      obtain ⟨hx, -⟩ := List.cons.injEq _ _ _ _ ▸ hc2
      subst hx
      have h0 : shallowCommas 0 p = 0 := hp.2 0 le_rfl
      rw [hc1, shallowCommas_append, hq.2 0 le_rfl, hq.1] at h0
      norm_num at h0
      have hpos := shallowCommas_comma_count (le_refl (0 : ℤ)) xs
      omega

/-- Splitting at a separator absent from both left parts is unambiguous. -/
theorem append_sep_inj {sep : Char} {a b c d : List Char}
    (ha : sep ∉ a) (hc : sep ∉ c)
    (h : a ++ sep :: b = c ++ sep :: d) : a = c ∧ b = d := by
  rcases List.append_eq_append_iff.mp h with ⟨e, he1, he2⟩ | ⟨e, he1, he2⟩
  · cases e with
    | nil =>
      rw [List.append_nil] at he1
      rw [List.nil_append] at he2
      exact ⟨he1.symm, (List.cons.injEq _ _ _ _ ▸ he2).2⟩
    | cons x xs =>
      rw [List.cons_append] at he2
      obtain ⟨hx, -⟩ := List.cons.injEq _ _ _ _ ▸ he2
      subst hx
      exact absurd (he1 ▸ List.mem_append_right a (List.mem_cons_self _ _)) hc
  · cases e with
    | nil =>
      rw [List.append_nil] at he1
      rw [List.nil_append] at he2
      exact ⟨he1, ((List.cons.injEq _ _ _ _ ▸ he2).2).symm⟩
    | cons x xs =>
      rw [List.cons_append] at he2
      obtain ⟨hx, -⟩ := List.cons.injEq _ _ _ _ ▸ he2
      subst hx
      exact absurd (he1 ▸ List.mem_append_right c (List.mem_cons_self _ _)) ha

theorem intDec_inj {i j : ℤ} (h : intDec i = intDec j) : i = j := by
  have h1 := pyInt_intDec i
  rw [h, pyInt_intDec] at h1
  exact (Option.some.inj h1).symm

theorem strLt_asymm : ∀ a b : List Char, strLt a b = true → strLt b a = false := by
  intro a
  induction a with
  | nil =>
    intro b h
    cases b with
    | nil => exact absurd h (by decide)
    | cons y ys => rfl
  | cons x xs ih =>
    intro b h
    cases b with
    | nil => exact Bool.noConfusion h
    | cons y ys =>
      simp only [strLt] at h ⊢
      by_cases hxy : x < y
      · rw [if_neg (lt_asymm hxy), if_pos hxy]
      · by_cases hyx : y < x
        · rw [if_neg hxy, if_pos hyx] at h
          exact absurd h (by decide)
        · rw [if_neg hxy, if_neg hyx] at h
          rw [if_neg hyx, if_neg hxy]
          exact ih ys h

theorem strLt_conn : ∀ a b : List Char, strLt a b = false → strLt b a = false →
    a = b := by
  intro a
  induction a with
  | nil =>
    intro b h1 h2
    cases b with
    | nil => rfl
    | cons y ys => exact Bool.noConfusion h1
  | cons x xs ih =>
    intro b h1 h2
    cases b with
    | nil => exact Bool.noConfusion h2
    | cons y ys =>
      simp only [strLt] at h1 h2
      by_cases hxy : x < y
      · rw [if_pos hxy] at h1
        exact absurd h1 (by decide)
      · by_cases hyx : y < x
        · rw [if_pos hyx] at h2
          exact absurd h2 (by decide)
        · rw [if_neg hxy, if_neg hyx] at h1
          rw [if_neg hyx, if_neg hxy] at h2
          have hxe : x = y := le_antisymm (not_lt.mp hyx) (not_lt.mp hxy)
          rw [hxe, ih ys h1 h2]

theorem sortPair_comm (a b : List Char) : sortPair a b = sortPair b a := by
  unfold sortPair
  by_cases h1 : strLt b a = true
  · have h2 : strLt a b = false := strLt_asymm b a h1
    rw [if_pos h1, if_neg (by simp [h2])]
  · by_cases h2 : strLt a b = true
    · rw [if_neg h1, if_pos h2]
    · have hab : a = b := strLt_conn a b (by simpa using h2) (by simpa using h1)
      subst hab
      rfl

theorem sortPair_eq_cases (a b : List Char) :
    sortPair a b = (a, b) ∨ sortPair a b = (b, a) := by
  unfold sortPair
  split
  · right
    rfl
  · left
    rfl

/-- Equal canonical keys force equal (possibly undefined) values: the key
string determines the tree up to the sorted-argument ambiguity of `+`/`*`,
which evaluation cannot see. -/
theorem eval_eq_of_key_eq : ∀ t1 t2 : Node, key t1 = key t2 →
    evaluate t1 = evaluate t2 := by
  intro t1
  induction t1 with
  | num v1 =>
    intro t2 h
    cases t2 with
    | num v2 =>
      simp only [key, List.cons.injEq, true_and] at h
      obtain ⟨h1, h2⟩ :=
        append_sep_inj (slash_not_mem_intDec _) (slash_not_mem_intDec _) h
      have e1 : v1.num = v2.num := intDec_inj h1
      have e2 : v1.den = v2.den := by exact_mod_cast intDec_inj h2
      rw [Rat.ext e1 e2]
    | binOp op2 l2 r2 =>
      cases op2 <;>
        (simp only [key, List.cons.injEq] at h; exact absurd h.1 (by decide))
  | binOp op1 l1 r1 ihl ihr =>
    intro t2 h
    cases t2 with
    | num v2 =>
      cases op1 <;>
        (simp only [key, List.cons.injEq] at h; exact absurd h.1 (by decide))
    | binOp op2 l2 r2 =>
      cases op1 <;> cases op2 <;>
        first
          | (simp only [key, List.cons.injEq] at h; exact absurd h.1 (by decide))
          | skip
      case add.add =>
        simp only [key, List.cons.injEq, true_and] at h
        obtain ⟨h1, h2⟩ := goodKey_sep_split
          (sortPair_good (key_good l1) (key_good r1)).1
          (sortPair_good (key_good l2) (key_good r2)).1 h
        have h3 := List.append_cancel_right h2
        have hpair : sortPair (key l1) (key r1) = sortPair (key l2) (key r2) :=
          Prod.ext h1 h3
        have hcases : (key l1 = key l2 ∧ key r1 = key r2) ∨
            (key l1 = key r2 ∧ key r1 = key l2) := by
          rcases sortPair_eq_cases (key l1) (key r1) with hs1 | hs1 <;>
            rcases sortPair_eq_cases (key l2) (key r2) with hs2 | hs2 <;>
              rw [hs1, hs2] at hpair <;>
                simp only [Prod.mk.injEq] at hpair
          · exact Or.inl hpair
          · exact Or.inr hpair
          · exact Or.inr ⟨hpair.2, hpair.1⟩
          · exact Or.inl ⟨hpair.2, hpair.1⟩
        rcases hcases with ⟨ha, hb⟩ | ⟨ha, hb⟩
        · simp only [evaluate, ihl l2 ha, ihr r2 hb]
        · simp only [evaluate, ihl r2 ha, ihr l2 hb]
          rcases evaluate l2 with _ | lv <;> rcases evaluate r2 with _ | rv <;>
            simp [add_comm]
      case mul.mul =>
        simp only [key, List.cons.injEq, true_and] at h
        obtain ⟨h1, h2⟩ := goodKey_sep_split
          (sortPair_good (key_good l1) (key_good r1)).1
          (sortPair_good (key_good l2) (key_good r2)).1 h
        have h3 := List.append_cancel_right h2
        have hpair : sortPair (key l1) (key r1) = sortPair (key l2) (key r2) :=
          Prod.ext h1 h3
        have hcases : (key l1 = key l2 ∧ key r1 = key r2) ∨
            (key l1 = key r2 ∧ key r1 = key l2) := by
          rcases sortPair_eq_cases (key l1) (key r1) with hs1 | hs1 <;>
            rcases sortPair_eq_cases (key l2) (key r2) with hs2 | hs2 <;>
              rw [hs1, hs2] at hpair <;>
                simp only [Prod.mk.injEq] at hpair
          · exact Or.inl hpair
          · exact Or.inr hpair
          · exact Or.inr ⟨hpair.2, hpair.1⟩
          · exact Or.inl ⟨hpair.2, hpair.1⟩
        rcases hcases with ⟨ha, hb⟩ | ⟨ha, hb⟩
        · simp only [evaluate, ihl l2 ha, ihr r2 hb]
        · simp only [evaluate, ihl r2 ha, ihr l2 hb]
          rcases evaluate l2 with _ | lv <;> rcases evaluate r2 with _ | rv <;>
            simp [mul_comm]
      case sub.sub =>
        simp only [key, List.cons.injEq, true_and] at h
        obtain ⟨h1, h2⟩ := goodKey_sep_split (key_good l1) (key_good l2) h
        have h3 := List.append_cancel_right h2
        simp only [evaluate, ihl l2 h1, ihr r2 h3]
      case div.div =>
        simp only [key, List.cons.injEq, true_and] at h
        obtain ⟨h1, h2⟩ := goodKey_sep_split (key_good l1) (key_good l2) h
        have h3 := List.append_cancel_right h2
        simp only [evaluate, ihl l2 h1, ihr r2 h3]

/-! ### Index-aligned comparison facts (claims C3 and C8) -/

/-- Whether the `j`-th submitted answer parses and equals the `j`-th
expected value (0-based). -/
def answerMatches (es : List ℚ) (as : List (List Char)) (j : ℕ) : Bool :=
  match parse_fraction_str (as.getD j []) with
  | none => false
  | some v => v = es.getD j 0

theorem answerMatches_succ (e : ℚ) (es : List ℚ) (a : List Char)
    (as : List (List Char)) (j : ℕ) :
    answerMatches (e :: es) (a :: as) (j + 1) = answerMatches es as j := by
  unfold answerMatches
  rw [List.getD_cons_succ, List.getD_cons_succ]

theorem compareAt_nil (as : List (List Char)) (i : ℕ) :
    compareAt [] as i = ([], []) := by
  cases as <;> rfl

theorem compareAt_cons_nil (e : ℚ) (es : List ℚ) (i : ℕ) :
    compareAt (e :: es) [] i =
      ((compareAt es [] (i + 1)).1, i :: (compareAt es [] (i + 1)).2) := rfl

theorem compareAt_cons_cons (e : ℚ) (es : List ℚ) (a : List Char)
    (as : List (List Char)) (i : ℕ) :
    compareAt (e :: es) (a :: as) i =
      match parse_fraction_str a with
      | none => ((compareAt es as (i + 1)).1, i :: (compareAt es as (i + 1)).2)
      | some v =>
        if v = e then (i :: (compareAt es as (i + 1)).1, (compareAt es as (i + 1)).2)
        else ((compareAt es as (i + 1)).1, i :: (compareAt es as (i + 1)).2) := rfl

theorem compareAt_cons_none (e : ℚ) (es : List ℚ) (a : List Char)
    (as : List (List Char)) (i : ℕ) (hp : parse_fraction_str a = none) :
    compareAt (e :: es) (a :: as) i =
      ((compareAt es as (i + 1)).1, i :: (compareAt es as (i + 1)).2) := by
  rw [compareAt_cons_cons, hp]

theorem compareAt_cons_some (e : ℚ) (es : List ℚ) (a : List Char)
    (as : List (List Char)) (i : ℕ) (v : ℚ)
    (hp : parse_fraction_str a = some v) :
    compareAt (e :: es) (a :: as) i =
      (if v = e then (i :: (compareAt es as (i + 1)).1, (compareAt es as (i + 1)).2)
       else ((compareAt es as (i + 1)).1, i :: (compareAt es as (i + 1)).2)) := by
  rw [compareAt_cons_cons, hp]

theorem compareAt_mem_ge :
    ∀ (es : List ℚ) (as : List (List Char)) (i : ℕ),
      (∀ j ∈ (compareAt es as i).1, i ≤ j) ∧
      (∀ j ∈ (compareAt es as i).2, i ≤ j) := by
  intro es
  induction es with
  | nil =>
    intro as i
    rw [compareAt_nil]
    exact ⟨fun j hj => absurd hj (List.not_mem_nil j),
      fun j hj => absurd hj (List.not_mem_nil j)⟩
  | cons e es ih =>
    intro as i
    cases as with
    | nil =>
      rw [compareAt_cons_nil]
      refine ⟨fun j hj => le_of_lt (lt_of_lt_of_le (by omega) ((ih [] (i+1)).1 j hj)), ?_⟩
      intro j hj
      rcases List.mem_cons.mp hj with rfl | hj
      · exact le_rfl
      · exact le_of_lt (lt_of_lt_of_le (by omega) ((ih [] (i+1)).2 j hj))
    | cons a as =>
      cases hp : parse_fraction_str a with
      | none =>
        rw [compareAt_cons_none e es a as i hp]
        refine ⟨fun j hj => le_of_lt (lt_of_lt_of_le (by omega) ((ih as (i+1)).1 j hj)), ?_⟩
        intro j hj
        rcases List.mem_cons.mp hj with rfl | hj
        · exact le_rfl
        · exact le_of_lt (lt_of_lt_of_le (by omega) ((ih as (i+1)).2 j hj))
      | some v =>
        by_cases hv : v = e
        · rw [compareAt_cons_some e es a as i v hp, if_pos hv]
          refine ⟨?_, fun j hj => le_of_lt (lt_of_lt_of_le (by omega) ((ih as (i+1)).2 j hj))⟩
          intro j hj
          rcases List.mem_cons.mp hj with rfl | hj
          · exact le_rfl
          · exact le_of_lt (lt_of_lt_of_le (by omega) ((ih as (i+1)).1 j hj))
        · rw [compareAt_cons_some e es a as i v hp, if_neg hv]
          refine ⟨fun j hj => le_of_lt (lt_of_lt_of_le (by omega) ((ih as (i+1)).1 j hj)), ?_⟩
          intro j hj
          rcases List.mem_cons.mp hj with rfl | hj
          · exact le_rfl
          · exact le_of_lt (lt_of_lt_of_le (by omega) ((ih as (i+1)).2 j hj))

theorem compareAt_sorted :
    ∀ (es : List ℚ) (as : List (List Char)) (i : ℕ),
      (compareAt es as i).1.Pairwise (· < ·) ∧
      (compareAt es as i).2.Pairwise (· < ·) := by
  intro es
  induction es with
  | nil =>
    intro as i
    rw [compareAt_nil]
    exact ⟨List.Pairwise.nil, List.Pairwise.nil⟩
  | cons e es ih =>
    intro as i
    cases as with
    | nil =>
      rw [compareAt_cons_nil]
      refine ⟨(ih [] (i+1)).1, List.Pairwise.cons ?_ (ih [] (i+1)).2⟩
      intro j hj
      exact lt_of_lt_of_le (by omega) ((compareAt_mem_ge es [] (i+1)).2 j hj)
    | cons a as =>
      cases hp : parse_fraction_str a with
      | none =>
        rw [compareAt_cons_none e es a as i hp]
        refine ⟨(ih as (i+1)).1, List.Pairwise.cons ?_ (ih as (i+1)).2⟩
        intro j hj
        exact lt_of_lt_of_le (by omega) ((compareAt_mem_ge es as (i+1)).2 j hj)
      | some v =>
        by_cases hv : v = e
        · rw [compareAt_cons_some e es a as i v hp, if_pos hv]
          refine ⟨List.Pairwise.cons ?_ (ih as (i+1)).1, (ih as (i+1)).2⟩
          intro j hj
          exact lt_of_lt_of_le (by omega) ((compareAt_mem_ge es as (i+1)).1 j hj)
        · rw [compareAt_cons_some e es a as i v hp, if_neg hv]
          refine ⟨(ih as (i+1)).1, List.Pairwise.cons ?_ (ih as (i+1)).2⟩
          intro j hj
          exact lt_of_lt_of_le (by omega) ((compareAt_mem_ge es as (i+1)).2 j hj)

theorem compareAt_correct_mem :
    ∀ (es : List ℚ) (as : List (List Char)) (i j : ℕ),
      j ∈ (compareAt es as i).1 ↔
        ∃ idx, idx < min es.length as.length ∧ j = idx + i ∧
          answerMatches es as idx = true := by
  intro es
  induction es with
  | nil =>
    intro as i j
    rw [compareAt_nil]
    simp
  | cons e es ih =>
    intro as i j
    cases as with
    | nil =>
      rw [compareAt_cons_nil]
      constructor
      · intro hj
        obtain ⟨idx, hidx, _, _⟩ := (ih [] (i+1) j).mp hj
        simp at hidx
      · rintro ⟨idx, hidx, -, -⟩
        simp at hidx
    | cons a as =>
      have hsucc : ∀ j2,
          (j2 ∈ (compareAt es as (i+1)).1 ↔
            ∃ idx, idx < min es.length as.length ∧ j2 = idx + (i+1) ∧
              answerMatches es as idx = true) := fun j2 => ih as (i+1) j2
      cases hp : parse_fraction_str a with
      | none =>
        rw [compareAt_cons_none e es a as i hp]
        constructor
        · intro hj
          obtain ⟨idx, h1, h2, h3⟩ := (hsucc j).mp hj
          exact ⟨idx + 1, by simpa using h1, by omega,
            by rw [answerMatches_succ]; exact h3⟩
        · rintro ⟨idx, h1, h2, h3⟩
          cases idx with
          | zero =>
            unfold answerMatches at h3
            rw [List.getD_cons_zero, hp] at h3
            cases h3
          | succ idx =>
            rw [answerMatches_succ] at h3
            exact (hsucc j).mpr ⟨idx, by simp at h1; omega, by omega, h3⟩
      | some v =>
        by_cases hv : v = e
        · rw [compareAt_cons_some e es a as i v hp, if_pos hv]
          constructor
          · intro hj
            rcases List.mem_cons.mp hj with rfl | hj
            · refine ⟨0, by simp, by omega, ?_⟩
              unfold answerMatches
              rw [List.getD_cons_zero, List.getD_cons_zero, hp]
              simp [hv]
            · obtain ⟨idx, h1, h2, h3⟩ := (hsucc j).mp hj
              exact ⟨idx + 1, by simpa using h1, by omega,
                by rw [answerMatches_succ]; exact h3⟩
          · rintro ⟨idx, h1, h2, h3⟩
            cases idx with
            | zero =>
              have hj0 : j = i := by omega
              rw [hj0]
              exact List.mem_cons_self _ _
            | succ idx =>
              rw [answerMatches_succ] at h3
              exact List.mem_cons_of_mem _
                ((hsucc j).mpr ⟨idx, by simp at h1; omega, by omega, h3⟩)
        · rw [compareAt_cons_some e es a as i v hp, if_neg hv]
          constructor
          · intro hj
            obtain ⟨idx, h1, h2, h3⟩ := (hsucc j).mp hj
            exact ⟨idx + 1, by simpa using h1, by omega,
              by rw [answerMatches_succ]; exact h3⟩
          · rintro ⟨idx, h1, h2, h3⟩
            cases idx with
            | zero =>
              unfold answerMatches at h3
              rw [List.getD_cons_zero, List.getD_cons_zero, hp] at h3
              simp [hv] at h3
            | succ idx =>
              rw [answerMatches_succ] at h3
              exact (hsucc j).mpr ⟨idx, by simp at h1; omega, by omega, h3⟩

theorem compareAt_wrong_mem :
    ∀ (es : List ℚ) (as : List (List Char)) (i j : ℕ),
      j ∈ (compareAt es as i).2 ↔
        ∃ idx, idx < es.length ∧ j = idx + i ∧
          (idx < as.length → answerMatches es as idx = false) := by
  intro es
  induction es with
  | nil =>
    intro as i j
    rw [compareAt_nil]
    simp
  | cons e es ih =>
    intro as i j
    cases as with
    | nil =>
      rw [compareAt_cons_nil]
      constructor
      · intro hj
        rcases List.mem_cons.mp hj with rfl | hj
        · exact ⟨0, by simp, by omega, by intro h; simp at h⟩
        · obtain ⟨idx, h1, h2, _⟩ := (ih [] (i+1) j).mp hj
          exact ⟨idx + 1, by simp at h1 ⊢; omega, by omega, by intro h; simp at h⟩
      · rintro ⟨idx, h1, h2, h3⟩
        cases idx with
        | zero =>
          have hj0 : j = i := by omega
          rw [hj0]
          exact List.mem_cons_self _ _
        | succ idx =>
          refine List.mem_cons_of_mem _ ((ih [] (i+1) j).mpr
            ⟨idx, by simp at h1 ⊢; omega, by omega, by intro h; simp at h⟩)
    | cons a as =>
      cases hp : parse_fraction_str a with
      | none =>
        rw [compareAt_cons_none e es a as i hp]
        constructor
        · intro hj
          rcases List.mem_cons.mp hj with rfl | hj
          · refine ⟨0, by simp, by omega, fun _ => ?_⟩
            unfold answerMatches
            rw [List.getD_cons_zero, hp]
          · obtain ⟨idx, h1, h2, h3⟩ := (ih as (i+1) j).mp hj
            refine ⟨idx + 1, by simp at h1 ⊢; omega, by omega, fun hlen => ?_⟩
            rw [answerMatches_succ]
            exact h3 (by simp at hlen; omega)
        · rintro ⟨idx, h1, h2, h3⟩
          cases idx with
          | zero =>
            have hj0 : j = i := by omega
            rw [hj0]
            exact List.mem_cons_self _ _
          | succ idx =>
            refine List.mem_cons_of_mem _ ((ih as (i+1) j).mpr
              ⟨idx, by simp at h1 ⊢; omega, by omega, fun hlen => ?_⟩)
            have := h3 (by simp; omega)
            rw [answerMatches_succ] at this
            exact this
      | some v =>
        by_cases hv : v = e
        · rw [compareAt_cons_some e es a as i v hp, if_pos hv]
          constructor
          · intro hj
            obtain ⟨idx, h1, h2, h3⟩ := (ih as (i+1) j).mp hj
            refine ⟨idx + 1, by simp at h1 ⊢; omega, by omega, fun hlen => ?_⟩
            rw [answerMatches_succ]
            exact h3 (by simp at hlen; omega)
          · rintro ⟨idx, h1, h2, h3⟩
            cases idx with
            | zero =>
              have := h3 (by simp)
              unfold answerMatches at this
              rw [List.getD_cons_zero, List.getD_cons_zero, hp] at this
              simp [hv] at this
            | succ idx =>
              refine (ih as (i+1) j).mpr
                ⟨idx, by simp at h1 ⊢; omega, by omega, fun hlen => ?_⟩
              have := h3 (by simp; omega)
              rw [answerMatches_succ] at this
              exact this
        · rw [compareAt_cons_some e es a as i v hp, if_neg hv]
          constructor
          · intro hj
            rcases List.mem_cons.mp hj with rfl | hj
            · refine ⟨0, by simp, by omega, fun _ => ?_⟩
              unfold answerMatches
              rw [List.getD_cons_zero, List.getD_cons_zero, hp]
              simp [hv]
            · obtain ⟨idx, h1, h2, h3⟩ := (ih as (i+1) j).mp hj
              refine ⟨idx + 1, by simp at h1 ⊢; omega, by omega, fun hlen => ?_⟩
              rw [answerMatches_succ]
              exact h3 (by simp at hlen; omega)
          · rintro ⟨idx, h1, h2, h3⟩
            cases idx with
            | zero =>
              have hj0 : j = i := by omega
              rw [hj0]
              exact List.mem_cons_self _ _
            | succ idx =>
              refine List.mem_cons_of_mem _ ((ih as (i+1) j).mpr
                ⟨idx, by simp at h1 ⊢; omega, by omega, fun hlen => ?_⟩)
              have := h3 (by simp; omega)
              rw [answerMatches_succ] at this
              exact this

theorem compareAt_take :
    ∀ (es : List ℚ) (as : List (List Char)) (i : ℕ),
      compareAt es (as.take es.length) i = compareAt es as i := by
  intro es
  induction es with
  | nil =>
    intro as i
    rw [compareAt_nil, compareAt_nil]
  | cons e es ih =>
    intro as i
    cases as with
    | nil => rfl
    | cons a as =>
      rw [List.length_cons, List.take_succ_cons, compareAt_cons_cons,
        compareAt_cons_cons, ih]

/-! ## The claims -/

attribute [local semireducible] Rat.add Rat.sub Rat.mul Rat.inv

/-- `randint` when the drawn value already lies inside the range. -/
theorem randint_exact {a b : ℤ} (g : ℕ → ℕ) (k : ℕ)
    (hlt : (g k : ℤ) < b - a + 1) : randint a b g k = a + g k := by
  unfold randint
  rw [Int.emod_eq_of_lt (by omega) hlt]

/-- A concrete oracle draw sequence for `build_expr_with_ops 6 2`:
leaf kinds nat/nat (values 1 and 2), first operator `+`, new leaf 5,
second operator `-` taken with the new leaf on the left. -/
def gC1 : ℕ → ℕ := fun k => [0, 1, 0, 2, 0, 0, 5, 1].getD k 0

/-- The generated tree `5 - (1 + 2)`. -/
def tC1 : Node := .binOp .sub (.num 5) (.binOp .add (.num 1) (.num 2))

/-- C1: the claimed print/parse refinement fails.  `build_expr_with_ops`
can produce the tree `5 - (1 + 2)` (a `-` node whose right child is a bare
`+` node, accepted since `5 ≥ 1 + 2`), whose `to_str` rendering is
`5 - 1 + 2` without parentheses; the tree's own `evaluate()` — the value
written to the answer file — is 2, but the Grader's tokenize-parse-evaluate
of that rendered text reads it left-associatively and yields 6. -/
theorem C1_render_parse_mismatch :
    build_expr_with_ops 6 2 gC1 0 = some (tC1, 8) ∧
    to_str tC1 = ['5', ' ', '-', ' ', '1', ' ', '+', ' ', '2'] ∧
    evaluate tC1 = some 2 ∧
    eval_expr_line (to_str tC1) = some 6 :=
  ⟨by decide, by decide, by decide, by decide⟩

/-- C5: every tree returned by `build_expr_with_ops` satisfies the
acceptance constraints at every internal node — each `-` node has
`left.evaluate() ≥ right.evaluate()`, each `/` node has a nonzero divisor
and a quotient strictly between 0 and 1 — and consequently `evaluate()`
on a generated tree is defined (never reaches the division-by-zero
branch). -/
theorem C5_generated_trees_constrained (r : ℤ) (nOps : ℕ) (g : ℕ → ℕ)
    (k : ℕ) (t : Node) (k' : ℕ)
    (h : build_expr_with_ops r nOps g k = some (t, k')) :
    constrained t ∧ (evaluate t).isSome := by
  have hc := build_expr_constrained h
  obtain ⟨v, hv⟩ := constrained_isSome hc
  exact ⟨hc, by rw [hv]; rfl⟩

/-- C5 witness: the theorem applied to the concrete build
`build_expr_with_ops 1 1 (fun _ => 0) 0 = some (0 + 0, 5)`. -/
theorem C5_witness :
    constrained (Node.binOp .add (.num 0) (.num 0)) ∧
    (evaluate (Node.binOp .add (.num 0) (.num 0))).isSome :=
  C5_generated_trees_constrained 1 1 (fun _ => 0) 0
    (Node.binOp .add (.num 0) (.num 0)) 5 (by decide)

/-- C6: within one `generate` call no two accepted problems share a
canonical key: a candidate whose key is in the seen-set is skipped without
touching the output, and a key is added exactly on acceptance, so the
accepted list's keys are pairwise distinct. -/
theorem C6_no_duplicate_keys (r n : ℤ) (g : ℕ → ℕ)
    (items : List (Node × ℚ)) (h : generate r n g = some items) :
    (items.map (fun p => key p.1)).Nodup := by
  unfold generate at h
  split at h
  · cases h
  · split at h
    · cases h
    · exact genLoop_nodup _ _ _ _ (by simp) (by simp) items h

/-- C6 witness: the theorem applied to the concrete run
`generate 1 1 (fun _ => 0)`, which accepts exactly `0 + 0`. -/
theorem C6_witness :
    (([(Node.binOp .add (.num 0) (.num 0), (0 : ℚ))]).map
      (fun p => key p.1)).Nodup :=
  C6_no_duplicate_keys 1 1 (fun _ => 0)
    [(Node.binOp .add (.num 0) (.num 0), (0 : ℚ))] (by decide)

/-- C7: for `r ≥ 1` and `n ≥ 1`, `generate` always returns normally (the
loop is bounded by the `n * 200` attempt budget encoded in its fuel), with
at most `n` accepted problems — exhausting the budget yields a short list,
not an error. -/
theorem C7_generate_terminates (r n : ℤ) (hr : 1 ≤ r) (hn : 1 ≤ n)
    (g : ℕ → ℕ) :
    ∃ items, generate r n g = some items ∧ items.length ≤ n.toNat := by
  unfold generate
  rw [if_neg (by omega), if_neg (by omega)]
  cases hout : genLoop r n.toNat g (n.toNat * 200) 0 [] [] with
  | none => exact absurd hout (genLoop_ne_none hr n.toNat g _ _ [] [])
  | some out =>
    exact ⟨out, rfl, genLoop_length _ _ _ _ _ hout (by simp)⟩

/-- C7 witness: the theorem applied at `r = 1`, `n = 1`, the all-zero
oracle. -/
theorem C7_witness :
    ∃ items, generate 1 1 (fun _ => 0) = some items ∧
      items.length ≤ (1 : ℤ).toNat :=
  C7_generate_terminates 1 1 (by norm_num) (by norm_num) (fun _ => 0)

/-- C2: `parse_fraction_str (fraction_to_str x) = x` exactly, for every
rational `x` (lowest terms, positive denominator — the invariants `ℚ`
itself maintains): integers, proper fractions and mixed numbers, of either
sign. -/
theorem C2_parse_format_exact (x : ℚ) :
    parse_fraction_str (fraction_to_str x) = some x :=
  parse_format_roundtrip x

/-- C9, counterexample part: at `r = 2` the claim's denominator range
`[2, r-1] = [2, 1]` is empty, but `make_proper_fraction` still draws a
denominator, namely `2` (from `randint(2, max(2, r-1))`), which is not
`≤ r - 1`. -/
theorem C9_r2_denominator_out_of_range :
    mpfDen 2 (fun _ => 0) 0 = 2 ∧ ¬ mpfDen 2 (fun _ => 0) 0 ≤ 2 - 1 := by
  decide

/-- C9, amended: for every `r ≥ 2` the result is strictly between 0 and 1
(and equals the drawn `num/den`); the denominator draw ranges over
`[2, max(2, r-1)]` — equal to the claimed `[2, r-1]` only when `r ≥ 3`,
and pinned to `2` when `r = 2` — with the numerator drawn from
`[1, den-1]`; every pair in those ranges is attainable; and for `r < 2`
the degenerate `0/1` is returned with no draws consumed. -/
theorem C9_make_proper_fraction_behavior :
    (∀ (r : ℤ) (g : ℕ → ℕ) (k : ℕ), 2 ≤ r →
        0 < (make_proper_fraction r g k).1 ∧ (make_proper_fraction r g k).1 < 1) ∧
    (∀ (r : ℤ) (g : ℕ → ℕ) (k : ℕ), 2 ≤ r →
        2 ≤ mpfDen r g k ∧ mpfDen r g k ≤ max 2 (r - 1) ∧
        1 ≤ mpfNum r g k ∧ mpfNum r g k ≤ mpfDen r g k - 1 ∧
        (make_proper_fraction r g k).1 = (mpfNum r g k : ℚ) / (mpfDen r g k : ℚ)) ∧
    (∀ (r : ℤ) (g : ℕ → ℕ) (k : ℕ), 3 ≤ r → mpfDen r g k ≤ r - 1) ∧
    (∀ (r d n : ℤ), 3 ≤ r → 2 ≤ d → d ≤ r - 1 → 1 ≤ n → n ≤ d - 1 →
        ∃ g : ℕ → ℕ, mpfDen r g 0 = d ∧ mpfNum r g 0 = n) ∧
    (∀ (g : ℕ → ℕ) (k : ℕ), mpfDen 2 g k = 2 ∧ mpfNum 2 g k = 1) ∧
    (∀ (r : ℤ) (g : ℕ → ℕ) (k : ℕ), r < 2 → make_proper_fraction r g k = (0, k)) := by
  have hden : ∀ (r : ℤ) (g : ℕ → ℕ) (k : ℕ), 2 ≤ r →
      2 ≤ mpfDen r g k ∧ mpfDen r g k ≤ max 2 (r - 1) := by
    intro r g k _
    exact randint_bounds (le_max_left _ _) g k
  have hnum : ∀ (r : ℤ) (g : ℕ → ℕ) (k : ℕ), 2 ≤ r →
      1 ≤ mpfNum r g k ∧ mpfNum r g k ≤ mpfDen r g k - 1 := by
    intro r g k hr
    exact randint_bounds (by have := (hden r g k hr).1; omega) g (k + 1)
  have hval : ∀ (r : ℤ) (g : ℕ → ℕ) (k : ℕ), 2 ≤ r →
      (make_proper_fraction r g k).1 = (mpfNum r g k : ℚ) / (mpfDen r g k : ℚ) := by
    intro r g k hr
    rw [make_proper_fraction, if_neg (by omega)]
  refine ⟨?_, ?_, ?_, ?_, ?_, ?_⟩
  · intro r g k hr
    obtain ⟨hd1, _⟩ := hden r g k hr
    obtain ⟨hn1, hn2⟩ := hnum r g k hr
    rw [hval r g k hr]
    have hdq : (0 : ℚ) < (mpfDen r g k : ℚ) := by
      exact_mod_cast (by omega : (0:ℤ) < mpfDen r g k)
    constructor
    · apply div_pos _ hdq
      exact_mod_cast (by omega : (0:ℤ) < mpfNum r g k)
    · rw [div_lt_one hdq]
      exact_mod_cast (by omega : mpfNum r g k < mpfDen r g k)
  · intro r g k hr
    exact ⟨(hden r g k hr).1, (hden r g k hr).2, (hnum r g k hr).1,
      (hnum r g k hr).2, hval r g k hr⟩
  · intro r g k hr
    have := (hden r g k (by omega)).2
    omega
  · intro r d n hr hd1 hd2 hn1 hn2
    have hmax : (2 : ℤ) ⊔ (r - 1) = r - 1 := max_eq_right (by omega)
    refine ⟨fun i => if i = 0 then (d - 2).toNat else (n - 1).toNat, ?_, ?_⟩
    · have hG0 : (((fun i : ℕ => if i = 0 then (d - 2).toNat else (n - 1).toNat) 0 : ℕ) : ℤ)
          = d - 2 := by
        simp only [reduceIte]
        omega
      unfold mpfDen
      rw [randint_exact _ _ (by rw [hG0, hmax]; omega), hG0]
      omega
    · have hG0 : (((fun i : ℕ => if i = 0 then (d - 2).toNat else (n - 1).toNat) 0 : ℕ) : ℤ)
          = d - 2 := by
        simp only [reduceIte]
        omega
      have hG1 : (((fun i : ℕ => if i = 0 then (d - 2).toNat else (n - 1).toNat) (0 + 1) : ℕ) : ℤ)
          = n - 1 := by
        norm_num
        omega
      have hdval : mpfDen r (fun i => if i = 0 then (d - 2).toNat else (n - 1).toNat) 0 = d := by
        unfold mpfDen
        rw [randint_exact _ _ (by rw [hG0, hmax]; omega), hG0]
        omega
      unfold mpfNum
      rw [hdval]
      rw [randint_exact _ _ (by rw [hG1]; omega), hG1]
      omega
  · intro g k
    have hmax : (2 : ℤ) ⊔ (2 - 1) = 2 := by norm_num
    have hdval : mpfDen 2 g k = 2 := by
      unfold mpfDen randint
      rw [hmax]
      omega
    refine ⟨hdval, ?_⟩
    unfold mpfNum
    rw [hdval]
    unfold randint
    omega
  · intro r g k hr
    rw [make_proper_fraction, if_pos hr]

/-- C9 witness: the amended statement applied at `r = 3`, the all-zero
oracle, draw index 0. -/
theorem C9_witness :
    0 < (make_proper_fraction 3 (fun _ => 0) 0).1 ∧
    (make_proper_fraction 3 (fun _ => 0) 0).1 < 1 :=
  C9_make_proper_fraction_behavior.1 3 (fun _ => 0) 0 (by decide)

/-- C8: grading compares index-aligned problem and answer lines: with the
loop started at 1-based index 1, index `j` is classified correct iff
`j = idx + 1` for an aligned position `idx` (below both lengths) whose
submitted answer parses to the expected value; wrong indices are exactly
the aligned mismatches/parse failures plus every problem index beyond the
answers; both id lists are strictly ascending; answers beyond the
problems' length never affect the outcome; and empty artifacts grade to
`Correct: 0 ()` / `Wrong: 0 ()`. -/
theorem C8_grading_alignment :
    (∀ (es : List ℚ) (as : List (List Char)) (j : ℕ),
        j ∈ (compareAt es as 1).1 ↔
          ∃ idx, idx < min es.length as.length ∧ j = idx + 1 ∧
            answerMatches es as idx = true) ∧
    (∀ (es : List ℚ) (as : List (List Char)) (j : ℕ),
        j ∈ (compareAt es as 1).2 ↔
          ∃ idx, idx < es.length ∧ j = idx + 1 ∧
            (idx < as.length → answerMatches es as idx = false)) ∧
    (∀ (es : List ℚ) (as : List (List Char)),
        (compareAt es as 1).1.Pairwise (· < ·) ∧
        (compareAt es as 1).2.Pairwise (· < ·)) ∧
    (∀ (es : List ℚ) (as : List (List Char)) (i : ℕ),
        compareAt es (as.take es.length) i = compareAt es as i) ∧
    grade [] [] = some ([], [],
      ['C', 'o', 'r', 'r', 'e', 'c', 't', ':', ' ', '0', ' ', '(', ')'],
      ['W', 'r', 'o', 'n', 'g', ':', ' ', '0', ' ', '(', ')']) := by
  refine ⟨?_, ?_, ?_, compareAt_take, by decide⟩
  · intro es as j
    exact compareAt_correct_mem es as 1 j
  · intro es as j
    exact compareAt_wrong_mem es as 1 j
  · intro es as
    exact compareAt_sorted es as 1

/-- C8 witness: the empty-artifact clause of the theorem. -/
theorem C8_witness :
    grade [] [] = some ([], [],
      ['C', 'o', 'r', 'r', 'e', 'c', 't', ':', ' ', '0', ' ', '(', ')'],
      ['W', 'r', 'o', 'n', 'g', ':', ' ', '0', ' ', '(', ')']) :=
  C8_grading_alignment.2.2.2.2

/-- C3, counterexample part: a malformed problem line is NOT a per-line
recoverable condition — `_eval_expr_line` is called on every problem line
with no handler, so grading the single problem line `(` against the answer
`1` aborts the whole run with no report at all. -/
theorem C3_malformed_problem_aborts :
    grade [['(']] [['1']] = none := by decide

/-- C3, amended: only submitted-answer lines are locally recovered.
Whenever every problem line evaluates, `grade` returns a full report no
matter what the answer lines contain, and an answer line that fails to
parse degrades exactly its own index to wrong; but a problem line that
fails to tokenize/parse/evaluate (including a zero divisor) aborts the
whole run with no report. -/
theorem C3_answer_recovery :
    (∀ (exLines ansLines : List (List Char)) (expected : List ℚ),
        evalAll ((exLines.map stripWs).filter (fun l => ¬ l = [])) = some expected →
        grade exLines ansLines =
          some ((compareAt expected ((ansLines.map stripWs).filter (fun l => ¬ l = [])) 1).1,
            (compareAt expected ((ansLines.map stripWs).filter (fun l => ¬ l = [])) 1).2,
            (reportLines
              (compareAt expected ((ansLines.map stripWs).filter (fun l => ¬ l = [])) 1).1
              (compareAt expected ((ansLines.map stripWs).filter (fun l => ¬ l = [])) 1).2).1,
            (reportLines
              (compareAt expected ((ansLines.map stripWs).filter (fun l => ¬ l = [])) 1).1
              (compareAt expected ((ansLines.map stripWs).filter (fun l => ¬ l = [])) 1).2).2)) ∧
    (∀ (es : List ℚ) (as : List (List Char)) (idx : ℕ),
        idx < min es.length as.length →
        parse_fraction_str (as.getD idx []) = none →
        (idx + 1) ∈ (compareAt es as 1).2 ∧ (idx + 1) ∉ (compareAt es as 1).1) := by
  constructor
  · intro exLines ansLines expected hev
    unfold grade
    simp only [hev]
  · intro es as idx hidx hp
    have hm : answerMatches es as idx = false := by
      unfold answerMatches
      rw [hp]
    constructor
    · exact (compareAt_wrong_mem es as 1 (idx + 1)).mpr
        ⟨idx, by omega, rfl, fun _ => hm⟩
    · intro hmem
      obtain ⟨idx2, h1, h2, h3⟩ := (compareAt_correct_mem es as 1 (idx + 1)).mp hmem
      have : idx2 = idx := by omega
      rw [this, hm] at h3
      cases h3

/-- C3 witness: the amended theorem applied to one well-formed problem
line `1` and an unparsable answer line `x`. -/
theorem C3_witness :
    grade [['1']] [['x']] =
      some ((compareAt [1] (([['x']].map stripWs).filter (fun l => ¬ l = [])) 1).1,
        (compareAt [1] (([['x']].map stripWs).filter (fun l => ¬ l = [])) 1).2,
        (reportLines
          (compareAt [1] (([['x']].map stripWs).filter (fun l => ¬ l = [])) 1).1
          (compareAt [1] (([['x']].map stripWs).filter (fun l => ¬ l = [])) 1).2).1,
        (reportLines
          (compareAt [1] (([['x']].map stripWs).filter (fun l => ¬ l = [])) 1).1
          (compareAt [1] (([['x']].map stripWs).filter (fun l => ¬ l = [])) 1).2).2) :=
  C3_answer_recovery.1 [['1']] [['x']] [1] (by decide)

/-- C10: `parse_fraction_str` accepts strictly more shapes than
`fraction_to_str` emits: `A<sep>a/b` parses to `A + a/b` for either
separator with no properness check on `a/b` (so `1'5/2` parses to `7/2`,
a string the formatter never produces), and one leading `-` negates the
whole mixed value. -/
theorem C10_parse_is_liberal :
    (∀ (A : ℕ) (a b : ℤ), b ≠ 0 →
        parse_fraction_str (natDec A ++ APOSTROPHE :: (intDec a ++ '/' :: intDec b))
          = some ((A : ℚ) + (a : ℚ) / (b : ℚ)) ∧
        parse_fraction_str (natDec A ++ '\'' :: (intDec a ++ '/' :: intDec b))
          = some ((A : ℚ) + (a : ℚ) / (b : ℚ)) ∧
        parse_fraction_str ('-' :: (natDec A ++ APOSTROPHE :: (intDec a ++ '/' :: intDec b)))
          = some (-((A : ℚ) + (a : ℚ) / (b : ℚ)))) ∧
    parse_fraction_str ['1', '\'', '5', '/', '2'] = some (7 / 2) ∧
    (∀ x : ℚ, fraction_to_str x ≠ ['1', '\'', '5', '/', '2']) := by
  have hshape : ∀ (A : ℕ) (a b : ℤ) (sep : Char), isSpaceChar sep = false →
      ∀ c ∈ natDec A ++ sep :: (intDec a ++ '/' :: intDec b), isSpaceChar c = false := by
    intro A a b sep hsep c hc
    rw [← intDec_natCast A] at hc
    exact mixed_literal_not_space hsep c hc
  have hcoreA : ∀ (A : ℕ) (a b : ℤ), b ≠ 0 →
      parseCore (natDec A ++ APOSTROPHE :: (intDec a ++ '/' :: intDec b))
        = some ((A : ℚ) + (a : ℚ) / (b : ℚ)) := by
    intro A a b hb
    rw [← intDec_natCast A, parseCore_mixed _ _ _ hb]
    norm_num
  have hcoreQ : ∀ (A : ℕ) (a b : ℤ), b ≠ 0 →
      parseCore (natDec A ++ '\'' :: (intDec a ++ '/' :: intDec b))
        = some ((A : ℚ) + (a : ℚ) / (b : ℚ)) := by
    intro A a b hb
    rw [← intDec_natCast A, parseCore_mixed_quote _ _ _ hb]
    norm_num
  refine ⟨?_, ?_, ?_⟩
  · intro A a b hb
    refine ⟨?_, ?_, ?_⟩
    · exact parse_of_parseCore (hshape A a b _ (by decide))
        (fun c hc => natDec_append_head hc) (hcoreA A a b hb)
    · exact parse_of_parseCore (hshape A a b _ (by decide))
        (fun c hc => natDec_append_head hc) (hcoreQ A a b hb)
    · exact parse_neg_of_parseCore (hshape A a b _ (by decide)) (hcoreA A a b hb)
  · decide
  · intro x h
    have := fraction_to_str_chars x '\'' (by rw [h]; decide)
    rcases this with h' | h' | h' | h' <;> revert h' <;> decide

/-- C10 witness: the general mixed-shape clause applied at `A = 1`,
`a = 5`, `b = 2` with the ASCII separator. -/
theorem C10_witness :
    parse_fraction_str (natDec 1 ++ '\'' :: (intDec 5 ++ '/' :: intDec 2))
      = some ((1 : ℚ) + (5 : ℚ) / (2 : ℚ)) :=
  (C10_parse_is_liberal.1 1 5 2 (by decide)).2.1

/-- C4: the canonical key is order-insensitive for the commutative
operators — `key (A + B) = key (B + A)` and `key (A * B) = key (B * A)` —
and order-sensitive for subtraction: whenever `evaluate A ≠ evaluate B`,
`key (A - B) ≠ key (B - A)`. -/
theorem C4_canonical_key_commutativity :
    (∀ A B : Node, key (.binOp .add A B) = key (.binOp .add B A)) ∧
    (∀ A B : Node, key (.binOp .mul A B) = key (.binOp .mul B A)) ∧
    (∀ A B : Node, evaluate A ≠ evaluate B →
      key (.binOp .sub A B) ≠ key (.binOp .sub B A)) := by
  refine ⟨fun A B => ?_, fun A B => ?_, fun A B hne hk => ?_⟩
  · simp only [key]
    rw [sortPair_comm]
  · simp only [key]
    rw [sortPair_comm]
  · simp only [key, List.cons.injEq, true_and] at hk
    obtain ⟨h1, -⟩ := goodKey_sep_split (key_good A) (key_good B) hk
    exact hne (eval_eq_of_key_eq A B h1)

/-- C4 witness: the subtraction clause applied at `A = 1`, `B = 2`, whose
values differ. -/
theorem C4_witness :
    evaluate (Node.num 1) ≠ evaluate (Node.num 2) ∧
    key (.binOp .sub (.num 1) (.num 2)) ≠ key (.binOp .sub (.num 2) (.num 1)) :=
  ⟨by decide,
    C4_canonical_key_commutativity.2.2 (Node.num 1) (Node.num 2) (by decide)⟩

end Calc
